import Mathlib

/-!
Client address resolution (`clientip.go`).

A shallow embedding of `FromRequest`, `fromXForwardedFor` and `splitHostPort`
of package `clientip`, together with the Go standard-library functions they
call (`strings.Split`, `strings.TrimSpace`, `net.SplitHostPort`, `net.ParseIP`,
`http.Header.Get`).

Go strings are modelled as lists of characters.  Every byte the code inspects
(`,`, `:`, `[`, `]`, `.`, `%`, digits, hex letters) is ASCII, and the bytes of
a multi-byte UTF-8 sequence are never ASCII, so positions and slices taken at
those bytes agree with positions and slices taken at characters.
-/

set_option autoImplicit false

namespace ClientIP

/-- A Go `string`. -/
abbrev GoString := List Char

/-- A Go `net.IP` that is not `nil`: the bytes of the address. `nil` is `none` of `Option IP`. -/
abbrev IP := List Nat

/-! ## Package `unicode` and `strings` -/

/-- Go `unicode.IsSpace`: the Latin-1 spaces `\t \n \v \f \r ' ' U+0085 U+00A0` and the other code
points of category White_Space. -/
def isSpace (c : Char) : Bool :=
  c.toNat = 0x09 || c.toNat = 0x0A || c.toNat = 0x0B || c.toNat = 0x0C || c.toNat = 0x0D ||
  c.toNat = 0x20 || c.toNat = 0x85 || c.toNat = 0xA0 || c.toNat = 0x1680 ||
  (0x2000 ≤ c.toNat && c.toNat ≤ 0x200A) || c.toNat = 0x2028 || c.toNat = 0x2029 ||
  c.toNat = 0x202F || c.toNat = 0x205F || c.toNat = 0x3000

/-- Go `strings.TrimSpace`: the string without its leading and trailing white space. -/
def TrimSpace (s : GoString) : GoString :=
  ((s.dropWhile isSpace).reverse.dropWhile isSpace).reverse

/-- Go `strings.Split(s, sep)` for a one-byte separator (the only call passes `","`): the
substrings between the separators, one more than there are separators. -/
def Split : GoString → Char → List GoString
  | [], _ => [[]]
  | c :: cs, sep =>
    if c = sep then [] :: Split cs sep
    else
      match Split cs sep with
      | [] => [[c]]
      | t :: ts => (c :: t) :: ts

/-- Go `bytealg.IndexByteString`: index of the first `c` in `s`; `none` stands for `-1`. -/
def IndexByteString : GoString → Char → Option Nat
  | [], _ => none
  | x :: xs, c => if x = c then some 0 else (IndexByteString xs c).map (· + 1)

/-- Go `bytealg.LastIndexByteString`: index of the last `c` in `s`; `none` stands for `-1`. -/
def LastIndexByteString : GoString → Char → Option Nat
  | [], _ => none
  | x :: xs, c =>
    match LastIndexByteString xs c with
    | some i => some (i + 1)
    | none => if x = c then some 0 else none

/-! ## `net.SplitHostPort` -/

/-- The `AddrError` reasons of `net.SplitHostPort`. -/
inductive AddrError where
  | missingPort
  | tooManyColons
  | missingClosingBracket
  | unexpectedOpeningBracket
  | unexpectedClosingBracket
  deriving DecidableEq, Repr

/-- The tail of `net.SplitHostPort`: no `[` from position `j` on, no `]` from position `k` on;
the port starts after the colon at position `i`. -/
def splitHostPortTail (hostport host : GoString) (i j k : Nat) :
    Except AddrError (GoString × GoString) :=
  if (IndexByteString (hostport.drop j) '[').isSome then
    .error .unexpectedOpeningBracket
  else if (IndexByteString (hostport.drop k) ']').isSome then
    .error .unexpectedClosingBracket
  else
    .ok (host, hostport.drop (i + 1))

/-- Go `net.SplitHostPort`: splits `host:port`, `host%zone:port`, `[host]:port` or
`[host%zone]:port` into host and port. -/
def SplitHostPort (hostport : GoString) : Except AddrError (GoString × GoString) :=
  match LastIndexByteString hostport ':' with
  | none => .error .missingPort
  | some i =>
    if hostport.head? = some '[' then
      match IndexByteString hostport ']' with
      | none => .error .missingClosingBracket
      | some e =>
        if e + 1 = hostport.length then .error .missingPort
        else if e + 1 = i then
          splitHostPortTail hostport ((hostport.take e).drop 1) i 1 (e + 1)
        else if hostport.get? (e + 1) = some ':' then .error .tooManyColons
        else .error .missingPort
    else
      if (IndexByteString (hostport.take i) ':').isSome then .error .tooManyColons
      else splitHostPortTail hostport (hostport.take i) i 0 0

/-- The function `splitHostPort` of `clientip.go`: the host of `net.SplitHostPort`, and whether the split
succeeded with a non-empty host. On an error `net.SplitHostPort` returns the empty host. -/
def splitHostPort (addr : GoString) : GoString × Bool :=
  match SplitHostPort addr with
  | .ok (raddr, _) => (raddr, raddr ≠ [])
  | .error _ => ([], false)

/-! ## `net/netip`: parsing address literals -/

/-- The zone field `z` of a `netip.Addr`: IPv4, IPv6 without zone, IPv6 with a zone name. -/
inductive AddrZone where
  | z4
  | z6noz
  | z6 (name : GoString)
  deriving DecidableEq, Repr

/-- A valid `netip.Addr`: the 16 bytes of its 128-bit value (an IPv4 address is stored
IPv4-mapped, `::ffff:a.b.c.d`) and its zone field. -/
structure Addr where
  addr : List Nat
  z : AddrZone
  deriving DecidableEq, Repr

/-- Go `netip.AddrFrom4`. -/
def AddrFrom4 (fields : List Nat) : Addr :=
  ⟨[0, 0, 0, 0, 0, 0, 0, 0, 0, 0, 0xff, 0xff] ++ fields, .z4⟩

/-- Go `netip.AddrFrom16`. -/
def AddrFrom16 (ip : List Nat) : Addr :=
  ⟨ip, .z6noz⟩

/-- Go `netip.Addr.WithZone`: no effect on an IPv4 address. -/
def Addr.WithZone (a : Addr) (zone : GoString) : Addr :=
  match a.z with
  | .z4 => a
  | _ => if zone = [] then ⟨a.addr, .z6noz⟩ else ⟨a.addr, .z6 zone⟩

/-- Go `netip.Addr.Zone`. -/
def Addr.Zone (a : Addr) : GoString :=
  match a.z with
  | .z6 name => name
  | _ => []

/-- Go `netip.Addr.As16`. -/
def Addr.As16 (a : Addr) : IP :=
  a.addr

/-- The loop of `netip.parseIPv4Fields` over the rest of the slice: `i` is the index of the
next byte, `prev` the byte before it, `val`, `pos`, `digLen` and `fields` as in the Go code.
`none` is the error return. -/
def parseIPv4FieldsLoop :
    GoString → Nat → Option Char → Nat → Nat → Nat → List Nat → Option (Nat × Nat × List Nat)
  | [], _, _, val, pos, _, fields => some (val, pos, fields)
  | c :: cs, i, prev, val, pos, digLen, fields =>
    if '0' ≤ c ∧ c ≤ '9' then
      if digLen = 1 ∧ val = 0 then none
      else if val * 10 + (c.toNat - '0'.toNat) > 255 then none
      else parseIPv4FieldsLoop cs (i + 1) (some c) (val * 10 + (c.toNat - '0'.toNat)) pos
        (digLen + 1) fields
    else if c = '.' then
      if i = 0 ∨ cs = [] ∨ prev = some '.' then none
      else if pos = 3 then none
      else parseIPv4FieldsLoop cs (i + 1) (some c) 0 (pos + 1) 0 (fields.set pos (val % 256))
    else none

/-- Go `netip.parseIPv4Fields` on the slice `s`, writing into the four bytes `fields`. -/
def parseIPv4Fields (s : GoString) (fields : List Nat) : Option (List Nat) :=
  match parseIPv4FieldsLoop s 0 none 0 0 0 fields with
  | none => none
  | some (val, pos, fields) => if pos < 3 then none else some (fields.set 3 (val % 256))

/-- Go `netip.parseIPv4`. -/
def parseIPv4 (s : GoString) : Option Addr :=
  match parseIPv4Fields s [0, 0, 0, 0] with
  | none => none
  | some fields => some (AddrFrom4 fields)

/-- The value of a hexadecimal digit, `none` for any other byte. -/
def hexVal (c : Char) : Option Nat :=
  if '0' ≤ c ∧ c ≤ '9' then some (c.toNat - '0'.toNat)
  else if 'a' ≤ c ∧ c ≤ 'f' then some (c.toNat - 'a'.toNat + 10)
  else if 'A' ≤ c ∧ c ≤ 'F' then some (c.toNat - 'A'.toNat + 10)
  else none

/-- The inner loop of `netip.parseIPv6` reading one hexadecimal group: returns the final
`off` and `acc` (a `uint32`), or `none` when the loop returns an error (more than four digits,
or a value above `0xffff`). -/
def scanHex : GoString → Nat → Nat → Option (Nat × Nat)
  | [], off, acc => some (off, acc)
  | c :: cs, off, acc =>
    match hexVal c with
    | none => some (off, acc)
    | some v =>
      if off > 3 then none
      else if (acc * 16 + v) % 2 ^ 32 > 0xffff then none
      else scanHex cs (off + 1) ((acc * 16 + v) % 2 ^ 32)

/-- The main loop `for i < 16` of `netip.parseIPv6`. The first argument `k` is the number of
16-bit groups still free, so that `i = 16 - 2 * k` and the loop condition `i < 16` is `0 < k`
(every iteration that continues adds 2 to `i`). Returns the values of `s`, `i`, `ellipsis`
and `ip` when the loop is left, `none` when the loop returns an error. -/
def parseIPv6Loop :
    Nat → GoString → Int → List Nat → Option (GoString × Nat × Int × List Nat)
  | 0, s, ellipsis, ip => some (s, 16, ellipsis, ip)
  | k + 1, s, ellipsis, ip =>
    match scanHex s 0 0 with
    | none => none
    | some (off, acc) =>
      if off = 0 then none
      else if (s.drop off).head? = some '.' then
        if ellipsis < 0 ∧ 16 - 2 * (k + 1) ≠ 12 then none
        else if 16 - 2 * (k + 1) + 4 > 16 then none
        else
          match parseIPv4Fields s ((ip.drop (16 - 2 * (k + 1))).take 4) with
          | none => none
          | some fields =>
            some ([], 16 - 2 * (k + 1) + 4, ellipsis,
              ip.take (16 - 2 * (k + 1)) ++ fields ++ ip.drop (16 - 2 * (k + 1) + 4))
      else if s.drop off = [] then
        some ([], 16 - 2 * k, ellipsis,
          (ip.set (16 - 2 * (k + 1)) (acc / 256 % 256)).set (16 - 2 * (k + 1) + 1) (acc % 256))
      else if (s.drop off).head? ≠ some ':' then none
      else if (s.drop off).length = 1 then none
      else if (s.drop (off + 1)).head? = some ':' then
        if ellipsis ≥ 0 then none
        else if s.drop (off + 2) = [] then
          some ([], 16 - 2 * k, ((16 - 2 * k : Nat) : Int),
            (ip.set (16 - 2 * (k + 1)) (acc / 256 % 256)).set (16 - 2 * (k + 1) + 1) (acc % 256))
        else
          parseIPv6Loop k (s.drop (off + 2)) ((16 - 2 * k : Nat) : Int)
            ((ip.set (16 - 2 * (k + 1)) (acc / 256 % 256)).set (16 - 2 * (k + 1) + 1) (acc % 256))
      else
        parseIPv6Loop k (s.drop (off + 1)) ellipsis
          ((ip.set (16 - 2 * (k + 1)) (acc / 256 % 256)).set (16 - 2 * (k + 1) + 1) (acc % 256))

/-- The loop `for j := i - 1; j >= ellipsis; j-- { ip[j+n] = ip[j] }` of `netip.parseIPv6`,
with `cnt` iterations left (`j = e + cnt - 1`). -/
def shiftGroups (n e : Nat) : Nat → List Nat → List Nat
  | 0, ip => ip
  | cnt + 1, ip => shiftGroups n e cnt (ip.set (e + cnt + n) (ip.getD (e + cnt) 0))

/-- The call `clear(ip[e : e+n])`. -/
def clearRange : Nat → Nat → List Nat → List Nat
  | 0, _, ip => ip
  | n + 1, e, ip => clearRange n (e + 1) (ip.set e 0)

/-- Go `netip.parseIPv6`. -/
def parseIPv6 (input : GoString) : Option Addr :=
  let pct := IndexByteString input '%'
  let s := match pct with
    | some i => input.take i
    | none => input
  let zone := match pct with
    | some i => input.drop (i + 1)
    | none => []
  if pct.isSome ∧ zone = [] then none
  else if s.take 2 = [':', ':'] ∧ s.drop 2 = [] then
    some ((AddrFrom16 (List.replicate 16 0)).WithZone zone)
  else
    match parseIPv6Loop 8 (if s.take 2 = [':', ':'] then s.drop 2 else s)
        (if s.take 2 = [':', ':'] then 0 else -1) (List.replicate 16 0) with
    | none => none
    | some (rest, i, ellipsis, ip) =>
      if rest ≠ [] then none
      else if i < 16 then
        if ellipsis < 0 then none
        else
          some ((AddrFrom16 (clearRange (16 - i) ellipsis.toNat
            (shiftGroups (16 - i) ellipsis.toNat (i - ellipsis.toNat) ip))).WithZone zone)
      else if ellipsis ≥ 0 then none
      else some ((AddrFrom16 ip).WithZone zone)

/-- The loop of `netip.ParseAddr` over the bytes of `s`: the first `.`, `:` or `%` decides. -/
def ParseAddrLoop (s : GoString) : GoString → Option Addr
  | [] => none
  | c :: cs =>
    if c = '.' then parseIPv4 s
    else if c = ':' then parseIPv6 s
    else if c = '%' then none
    else ParseAddrLoop s cs

/-- Go `netip.ParseAddr`. -/
def ParseAddr (s : GoString) : Option Addr :=
  ParseAddrLoop s s

/-- Go `net.ParseIP`: the 16-byte form of the address `s` denotes, `none` (Go `nil`) when `s` is
not an IPv4 or IPv6 literal or carries a zone. -/
def ParseIP (s : GoString) : Option IP :=
  match ParseAddr s with
  | none => none
  | some a => if a.Zone ≠ [] then none else some a.As16

/-- Go `net.IPv4(a, b, c, d)`: the 16-byte form of the IPv4 address `a.b.c.d`. -/
def IPv4 (a b c d : Nat) : IP :=
  [0, 0, 0, 0, 0, 0, 0, 0, 0, 0, 0xff, 0xff, a, b, c, d]

/-! ## `net/http`: header access -/

/-- Go `textproto.validHeaderFieldByte`: the token characters of RFC 7230. -/
def validHeaderFieldByte (c : Char) : Bool :=
  ('0' ≤ c && c ≤ '9') || ('a' ≤ c && c ≤ 'z') || ('A' ≤ c && c ≤ 'Z') ||
  c.toNat ∈ [0x21, 0x23, 0x24, 0x25, 0x26, 0x27, 0x2a, 0x2b, 0x2d, 0x2e, 0x5e, 0x5f, 0x60,
    0x7c, 0x7e]

/-- The canonicalising loop of `textproto.canonicalMIMEHeaderKey`: upper case for the first
letter and for a letter after `-`, lower case elsewhere. -/
def canonicalLoop : GoString → Bool → GoString
  | [], _ => []
  | c :: cs, upper =>
    if upper ∧ 'a' ≤ c ∧ c ≤ 'z' then
      Char.ofNat (c.toNat - 32) :: canonicalLoop cs (Char.ofNat (c.toNat - 32) = '-')
    else if ¬ upper ∧ 'A' ≤ c ∧ c ≤ 'Z' then
      Char.ofNat (c.toNat + 32) :: canonicalLoop cs (Char.ofNat (c.toNat + 32) = '-')
    else c :: canonicalLoop cs (c = '-')

/-- Go `textproto.CanonicalMIMEHeaderKey`: a key with a byte that is not a token character is
returned unchanged. -/
def CanonicalMIMEHeaderKey (s : GoString) : GoString :=
  if s.all validHeaderFieldByte then canonicalLoop s true else s

/-- Go `http.Header`, a `map[string][]string`: keys with their lists of values. -/
abbrev Header := List (GoString × List GoString)

/-- Go `http.Header.Get`: the first value stored under the canonical form of `key`, the empty
string when there is none. -/
def Header.Get (h : Header) (key : GoString) : GoString :=
  match h.lookup (CanonicalMIMEHeaderKey key) with
  | some (v :: _) => v
  | _ => []

/-- The fields of `http.Request` that `FromRequest` reads. -/
structure Request where
  Header : Header
  RemoteAddr : GoString

/-! ## `clientip.go` -/

/-- The constant `headerXForwardedFor`. -/
def headerXForwardedFor : GoString := "x-forwarded-for".toList

/-- The variable `headerIPs`: the alternative headers, in the order they are tried. -/
def headerIPs : List GoString :=
  ["x-client-ip".toList, "cf-connecting-ip".toList, "fastly-client-ip".toList,
   "true-client-ip".toList, "x-real-ip".toList, "x-cluster-client-ip".toList,
   "x-forwarded".toList, "forwarded-for".toList]

/-- The loop `for _, ip := range strings.Split(xfwdfor, ",")` of `fromXForwardedFor`. -/
def fromXForwardedForLoop : List GoString → Option IP
  | [] => none
  | ip :: rest =>
    match ParseIP (if (splitHostPort (TrimSpace ip)).2 then (splitHostPort (TrimSpace ip)).1
        else TrimSpace ip) with
    | some parsedIP => some parsedIP
    | none => fromXForwardedForLoop rest

/-- The function `fromXForwardedFor`. -/
def fromXForwardedFor (xfwdfor : GoString) : Option IP :=
  fromXForwardedForLoop (Split xfwdfor ',')

/-- The loop `for _, header := range headerIPs` of `FromRequest`; `none` when the loop ends
without returning. -/
def fromHeaderIPs (h : Header) : List GoString → Option IP
  | [] => none
  | header :: rest =>
    match ParseIP (h.Get header) with
    | some ip => some ip
    | none => fromHeaderIPs h rest

/-- The function `FromRequest`. -/
def FromRequest (r : Request) : Option IP :=
  match fromXForwardedFor (r.Header.Get "x-forwarded-for".toList) with
  | some ip => some ip
  | none =>
    match fromHeaderIPs r.Header headerIPs with
    | some ip => some ip
    | none =>
      ParseIP (if (splitHostPort r.RemoteAddr).2 then (splitHostPort r.RemoteAddr).1
        else r.RemoteAddr)

/-! ## Vocabulary of the properties -/

/-- The bytes that occur in address literals: hexadecimal digits, `.` and `:`. -/
def addrByte (c : Char) : Bool :=
  (hexVal c).isSome || c = '.' || c = ':'

/-- The string `fromXForwardedFor` parses for the chain token `t`: the trimmed token, replaced
by its host part when `splitHostPort` succeeds on it. -/
def chainToken (t : GoString) : GoString :=
  if (splitHostPort (TrimSpace t)).2 then (splitHostPort (TrimSpace t)).1 else TrimSpace t

/-- The string `FromRequest` parses for the peer address `addr`: its host part when
`splitHostPort` succeeds on it, the raw string otherwise. -/
def peerHost (addr : GoString) : GoString :=
  if (splitHostPort addr).2 then (splitHostPort addr).1 else addr

/-! ## Go run-time panics

The definitions above are the values the Go functions return. The definitions of this section
follow the same Go code once more, statement by statement, with every operation that can
panic at run time made explicit: index expressions `s[i]`, slice expressions `s[lo:hi]`,
assignments `a[i] = v` and the dereference of a `nil` pointer. A panic is `Except.error`.
Indices are Go `int`s, so an index below zero is expressible. As before a character stands
for its UTF-8 bytes: an index is a character position, and a character of code `0x80` or more
is a non-ASCII byte sequence that decodes to one rune. -/

/-- The run-time panics of the operations used by the code. -/
inductive Panic where
  | nilDereference
  | indexOutOfRange
  | sliceOutOfRange
  deriving DecidableEq, Repr

/-- The Go index expression `s[i]`. -/
def indexAt {α : Type} (s : List α) (i : Int) : Except Panic α :=
  if i < 0 then .error .indexOutOfRange
  else
    match s[i.toNat]? with
    | some x => .ok x
    | none => .error .indexOutOfRange

/-- The Go slice expression `s[lo:hi]`. -/
def sliceOf {α : Type} (s : List α) (lo hi : Int) : Except Panic (List α) :=
  if 0 ≤ lo ∧ lo ≤ hi ∧ hi ≤ s.length then .ok ((s.take hi.toNat).drop lo.toNat)
  else .error .sliceOutOfRange

/-- The Go assignment `s[i] = v`. -/
def assignAt {α : Type} (s : List α) (i : Int) (v : α) : Except Panic (List α) :=
  if 0 ≤ i ∧ i < s.length then .ok (s.set i.toNat v) else .error .indexOutOfRange

/-- The Go `int` returned by an index search: `-1` when there is no occurrence. -/
def indexInt (o : Option Nat) : Int :=
  match o with
  | some i => i
  | none => -1

namespace Checked

/-- The tail of `net.SplitHostPort`, with the slice expressions `hostport[j:]`, `hostport[k:]`
and `hostport[i+1:]` checked. -/
def splitHostPortTail (hostport host : GoString) (i j k : Int) :
    Except Panic (Except AddrError (GoString × GoString)) :=
  (sliceOf hostport j hostport.length).bind fun sj =>
  if indexInt (IndexByteString sj '[') ≥ 0 then .ok (.error .unexpectedOpeningBracket)
  else
    (sliceOf hostport k hostport.length).bind fun sk =>
    if indexInt (IndexByteString sk ']') ≥ 0 then .ok (.error .unexpectedClosingBracket)
    else
      (sliceOf hostport (i + 1) hostport.length).bind fun port =>
      .ok (.ok (host, port))

/-- Go `net.SplitHostPort` with `hostport[0]`, `hostport[end+1]`, `hostport[1:end]` and
`hostport[:i]` checked. The outer `Except` is a panic, the inner one the returned `error`. -/
def SplitHostPort (hostport : GoString) :
    Except Panic (Except AddrError (GoString × GoString)) :=
  if indexInt (LastIndexByteString hostport ':') < 0 then .ok (.error .missingPort)
  else
    (indexAt hostport 0).bind fun c0 =>
    if c0 = '[' then
      if indexInt (IndexByteString hostport ']') < 0 then .ok (.error .missingClosingBracket)
      else if indexInt (IndexByteString hostport ']') + 1 = hostport.length then
        .ok (.error .missingPort)
      else if indexInt (IndexByteString hostport ']') + 1
          = indexInt (LastIndexByteString hostport ':') then
        (sliceOf hostport 1 (indexInt (IndexByteString hostport ']'))).bind fun host =>
        splitHostPortTail hostport host (indexInt (LastIndexByteString hostport ':')) 1
          (indexInt (IndexByteString hostport ']') + 1)
      else
        (indexAt hostport (indexInt (IndexByteString hostport ']') + 1)).bind fun c =>
        if c = ':' then .ok (.error .tooManyColons) else .ok (.error .missingPort)
    else
      (sliceOf hostport 0 (indexInt (LastIndexByteString hostport ':'))).bind fun host =>
      if indexInt (IndexByteString host ':') ≥ 0 then .ok (.error .tooManyColons)
      else splitHostPortTail hostport host (indexInt (LastIndexByteString hostport ':')) 0 0

end Checked
namespace Checked

/-- The loop `for i := 0; i < len(s); i++` of `netip.parseIPv4Fields` with `n` bytes left, so
that `i = len(s) - n`; the index expressions `s[i]`, `s[i-1]` and the assignment
`fields[pos] = uint8(val)` are checked. The inner `none` is the returned error. -/
def parseIPv4FieldsLoop (s : GoString) :
    Nat → Nat → Nat → Nat → List Nat → Except Panic (Option (Nat × Nat × List Nat))
  | 0, val, pos, _, fields => .ok (some (val, pos, fields))
  | n + 1, val, pos, digLen, fields =>
    (indexAt s ((s.length - (n + 1) : Nat) : Int)).bind fun c =>
    if '0' ≤ c ∧ c ≤ '9' then
      if digLen = 1 ∧ val = 0 then .ok none
      else if val * 10 + (c.toNat - '0'.toNat) > 255 then .ok none
      else parseIPv4FieldsLoop s n (val * 10 + (c.toNat - '0'.toNat)) pos (digLen + 1) fields
    else if c = '.' then
      if s.length - (n + 1) = 0 then .ok none
      else if ((s.length - (n + 1) : Nat) : Int) = (s.length : Int) - 1 then .ok none
      else
        (indexAt s (((s.length - (n + 1) : Nat) : Int) - 1)).bind fun p =>
        if p = '.' then .ok none
        else if pos = 3 then .ok none
        else
          (assignAt fields (pos : Int) (val % 256)).bind fun fields =>
          parseIPv4FieldsLoop s n 0 (pos + 1) 0 fields
    else .ok none

/-- Go `netip.parseIPv4Fields(in, off, end, fields)` with the slice `in[off:end]` and the
assignment `fields[3] = uint8(val)` checked. -/
def parseIPv4Fields (input : GoString) (off e : Int) (fields : List Nat) :
    Except Panic (Option (List Nat)) :=
  (sliceOf input off e).bind fun s =>
  (parseIPv4FieldsLoop s s.length 0 0 0 fields).bind fun r =>
  match r with
  | none => .ok none
  | some (val, pos, fields) =>
    if pos < 3 then .ok none
    else (assignAt fields 3 (val % 256)).bind fun fields => .ok (some fields)

/-- Go `netip.parseIPv4`: `parseIPv4Fields(s, 0, len(s), fields[:])` on a fresh `[4]uint8`. -/
def parseIPv4 (s : GoString) : Except Panic (Option Addr) :=
  (parseIPv4Fields s 0 s.length [0, 0, 0, 0]).bind fun r =>
  match r with
  | none => .ok none
  | some fields => .ok (some (AddrFrom4 fields))

/-- The loop `for ; off < len(s); off++` of `netip.parseIPv6` reading one hexadecimal group,
with `n` bytes left (`off = len(s) - n`) and `s[off]` checked. -/
def scanHex (s : GoString) : Nat → Nat → Except Panic (Option (Nat × Nat))
  | 0, acc => .ok (some (s.length, acc))
  | n + 1, acc =>
    (indexAt s ((s.length - (n + 1) : Nat) : Int)).bind fun c =>
    match hexVal c with
    | none => .ok (some (s.length - (n + 1), acc))
    | some v =>
      if s.length - (n + 1) > 3 then .ok none
      else if (acc * 16 + v) % 2 ^ 32 > 0xffff then .ok none
      else scanHex s n ((acc * 16 + v) % 2 ^ 32)

/-- The main loop `for i < 16` of `netip.parseIPv6` (`i = 16 - 2 * k`), with every index,
slice and assignment checked: `s[off]`, `ip[i:i+4]`, `in[end-len(s):end]` (inside
`parseIPv4Fields`), `ip[i]`, `ip[i+1]`, `s[off:]`, `s[0]`, `s[1:]`. The arguments `input` and
`e` are the whole string `in` and the position `end` where the zone starts. -/
def parseIPv6Loop (input : GoString) (e : Int) :
    Nat → GoString → Int → List Nat → Except Panic (Option (GoString × Nat × Int × List Nat))
  | 0, s, ellipsis, ip => .ok (some (s, 16, ellipsis, ip))
  | k + 1, s, ellipsis, ip =>
    (scanHex s s.length 0).bind fun r =>
    match r with
    | none => .ok none
    | some (off, acc) =>
      if off = 0 then .ok none
      else
        (if off < s.length then (indexAt s (off : Int)).bind fun c => .ok (decide (c = '.'))
          else .ok false).bind fun dot =>
        if dot then
          if ellipsis < 0 ∧ 16 - 2 * (k + 1) ≠ 12 then .ok none
          else if 16 - 2 * (k + 1) + 4 > 16 then .ok none
          else
            (sliceOf ip ((16 - 2 * (k + 1) : Nat) : Int)
              ((16 - 2 * (k + 1) + 4 : Nat) : Int)).bind fun fields =>
            (parseIPv4Fields input (e - (s.length : Int)) e fields).bind fun r4 =>
            match r4 with
            | none => .ok none
            | some fields =>
              .ok (some ([], 16 - 2 * (k + 1) + 4, ellipsis,
                ip.take (16 - 2 * (k + 1)) ++ fields ++ ip.drop (16 - 2 * (k + 1) + 4)))
        else
          (assignAt ip ((16 - 2 * (k + 1) : Nat) : Int) (acc / 256 % 256)).bind fun ip1 =>
          (assignAt ip1 ((16 - 2 * (k + 1) + 1 : Nat) : Int) (acc % 256)).bind fun ip2 =>
          (sliceOf s (off : Int) (s.length : Int)).bind fun s1 =>
          if s1.length = 0 then .ok (some (s1, 16 - 2 * k, ellipsis, ip2))
          else
            (indexAt s1 0).bind fun c1 =>
            if c1 ≠ ':' then .ok none
            else if s1.length = 1 then .ok none
            else
              (sliceOf s1 1 (s1.length : Int)).bind fun s2 =>
              (indexAt s2 0).bind fun c2 =>
              if c2 = ':' then
                if ellipsis ≥ 0 then .ok none
                else
                  (sliceOf s2 1 (s2.length : Int)).bind fun s3 =>
                  if s3.length = 0 then
                    .ok (some (s3, 16 - 2 * k, ((16 - 2 * k : Nat) : Int), ip2))
                  else parseIPv6Loop input e k s3 ((16 - 2 * k : Nat) : Int) ip2
              else parseIPv6Loop input e k s2 ellipsis ip2

/-- The loop `for j := i - 1; j >= ellipsis; j-- { ip[j+n] = ip[j] }` with both index
expressions checked (`j = e + cnt - 1` with `cnt` iterations left). -/
def shiftGroups (n e : Nat) : Nat → List Nat → Except Panic (List Nat)
  | 0, ip => .ok ip
  | cnt + 1, ip =>
    (indexAt ip ((e + cnt : Nat) : Int)).bind fun v =>
    (assignAt ip ((e + cnt + n : Nat) : Int) v).bind fun ip1 =>
    shiftGroups n e cnt ip1

/-- The call `clear(ip[e : e+n])` with the slice expression checked. -/
def clearRange (n e : Nat) (ip : List Nat) : Except Panic (List Nat) :=
  (sliceOf ip (e : Int) ((e + n : Nat) : Int)).bind fun _ => .ok (ClientIP.clearRange n e ip)

/-- Go `netip.parseIPv6` with every index and slice expression checked: `s[:i]`, `s[i+1:]`,
`s[0]`, `s[1]`, `s[2:]`, the main loop, and the expansion of the ellipsis. -/
def parseIPv6 (input : GoString) : Except Panic (Option Addr) :=
  (if indexInt (IndexByteString input '%') ≠ -1 then
      (sliceOf input 0 (indexInt (IndexByteString input '%'))).bind fun s =>
      (sliceOf input (indexInt (IndexByteString input '%') + 1) (input.length : Int)).bind
        fun zone => .ok (s, zone)
    else .ok (input, [])).bind fun sz =>
  if indexInt (IndexByteString input '%') ≠ -1 ∧ sz.2 = [] then .ok none
  else
    (if sz.1.length ≥ 2 then
        (indexAt sz.1 0).bind fun c0 =>
        if c0 = ':' then (indexAt sz.1 1).bind fun c1 => .ok (decide (c1 = ':'))
        else .ok false
      else .ok false).bind fun lead =>
    (if lead then sliceOf sz.1 2 (sz.1.length : Int) else .ok sz.1).bind fun s =>
    if lead ∧ s.length = 0 then
      .ok (some ((AddrFrom16 (List.replicate 16 0)).WithZone sz.2))
    else
      (parseIPv6Loop input
        ((input.length : Int) - (if sz.2.length > 0 then (sz.2.length : Int) + 1 else 0))
        8 s (if lead then 0 else -1) (List.replicate 16 0)).bind fun r =>
      match r with
      | none => .ok none
      | some (rest, i, ellipsis, ip) =>
        if rest.length ≠ 0 then .ok none
        else if i < 16 then
          if ellipsis < 0 then .ok none
          else
            (shiftGroups (16 - i) ellipsis.toNat (i - ellipsis.toNat) ip).bind fun ip1 =>
            (clearRange (16 - i) ellipsis.toNat ip1).bind fun ip2 =>
            .ok (some ((AddrFrom16 ip2).WithZone sz.2))
        else if ellipsis ≥ 0 then .ok none
        else .ok (some ((AddrFrom16 ip).WithZone sz.2))

/-- The loop `for i := 0; i < len(s); i++` of `netip.ParseAddr` with `n` bytes left and
`s[i]` checked. -/
def ParseAddrLoop (s : GoString) : Nat → Except Panic (Option Addr)
  | 0 => .ok none
  | n + 1 =>
    (indexAt s ((s.length - (n + 1) : Nat) : Int)).bind fun c =>
    if c = '.' then parseIPv4 s
    else if c = ':' then parseIPv6 s
    else if c = '%' then .ok none
    else ParseAddrLoop s n

/-- Go `netip.ParseAddr`. -/
def ParseAddr (s : GoString) : Except Panic (Option Addr) :=
  ParseAddrLoop s s.length

/-- Go `net.ParseIP`. -/
def ParseIP (s : GoString) : Except Panic (Option IP) :=
  (ParseAddr s).bind fun r =>
  match r with
  | none => .ok none
  | some a => if a.Zone ≠ [] then .ok none else .ok (some a.As16)

end Checked
namespace Checked

/-- The table `asciiSpace` of package `strings`: `\t`, `\n`, `\v`, `\f`, `\r` and the space. -/
def asciiSpace (c : Char) : Bool :=
  c.toNat = 0x09 || c.toNat = 0x0A || c.toNat = 0x0B || c.toNat = 0x0C || c.toNat = 0x0D ||
  c.toNat = 0x20

/-- Go `strings.indexFunc(s, f, truth)`: the loop `for i, r := range s`, with `i` the index of
the first rune of the rest. -/
def indexFunc : GoString → (Char → Bool) → Bool → Nat → Int
  | [], _, _, _ => -1
  | r :: rs, f, truth, i => if f r = truth then (i : Int) else indexFunc rs f truth (i + 1)

/-- Go `strings.TrimLeftFunc` with the slice `s[i:]` checked. -/
def TrimLeftFunc (s : GoString) (f : Char → Bool) : Except Panic GoString :=
  if indexFunc s f false 0 = -1 then .ok []
  else sliceOf s (indexFunc s f false 0) (s.length : Int)

/-- Go `strings.lastIndexFunc(s, f, truth)`: the loop `for i := len(s); i > 0;` that decodes
the last rune of `s[0:i]` (here the last character, of size 1) with the slice checked. The
argument is the current `i`. -/
def lastIndexFunc (s : GoString) (f : Char → Bool) (truth : Bool) : Nat → Except Panic Int
  | 0 => .ok (-1)
  | i + 1 =>
    (sliceOf s 0 ((i + 1 : Nat) : Int)).bind fun p =>
    if f (p.getLast?.getD (Char.ofNat 0xFFFD)) = truth then .ok (i : Int)
    else lastIndexFunc s f truth i

/-- Go `strings.TrimRightFunc` with `s[i]`, `s[i:]` and `s[0:i]` checked; the rune decoded at
`s[i:]` is one character wide. -/
def TrimRightFunc (s : GoString) (f : Char → Bool) : Except Panic GoString :=
  (lastIndexFunc s f false s.length).bind fun i =>
  (if i ≥ 0 then
      (indexAt s i).bind fun c =>
      if c.toNat ≥ 0x80 then (sliceOf s i (s.length : Int)).bind fun _ => .ok (i + 1)
      else .ok (i + 1)
    else .ok (i + 1)).bind fun j =>
  sliceOf s 0 j

/-- Go `strings.TrimFunc`. -/
def TrimFunc (s : GoString) (f : Char → Bool) : Except Panic GoString :=
  (TrimLeftFunc s f).bind fun t => TrimRightFunc t f

/-- The first loop of `strings.TrimSpace`, `for ; start < len(s); start++`, with `n` bytes
left (`start = len(s) - n`) and `s[start]`, `s[start:]` checked. The result is the returned
string when the loop returns, the final `start` otherwise. -/
def TrimSpaceStart (s : GoString) : Nat → Except Panic (GoString ⊕ Nat)
  | 0 => .ok (.inr s.length)
  | n + 1 =>
    (indexAt s ((s.length - (n + 1) : Nat) : Int)).bind fun c =>
    if c.toNat ≥ 0x80 then
      (sliceOf s ((s.length - (n + 1) : Nat) : Int) (s.length : Int)).bind fun t =>
      (TrimFunc t isSpace).bind fun r => .ok (.inl r)
    else if asciiSpace c = false then .ok (.inr (s.length - (n + 1)))
    else TrimSpaceStart s n

/-- The second loop of `strings.TrimSpace`, `for ; stop > start; stop--`, with
`stop = start + m` and `s[stop-1]`, `s[start:stop]` checked. -/
def TrimSpaceStop (s : GoString) (start : Nat) : Nat → Except Panic (GoString ⊕ Nat)
  | 0 => .ok (.inr start)
  | m + 1 =>
    (indexAt s (((start + (m + 1) : Nat) : Int) - 1)).bind fun c =>
    if c.toNat ≥ 0x80 then
      (sliceOf s (start : Int) ((start + (m + 1) : Nat) : Int)).bind fun t =>
      (TrimRightFunc t isSpace).bind fun r => .ok (.inl r)
    else if asciiSpace c = false then .ok (.inr (start + (m + 1)))
    else TrimSpaceStop s start m

/-- Go `strings.TrimSpace` with its index and slice expressions checked. -/
def TrimSpace (s : GoString) : Except Panic GoString :=
  (TrimSpaceStart s s.length).bind fun r1 =>
  match r1 with
  | .inl r => .ok r
  | .inr start =>
    (TrimSpaceStop s start (s.length - start)).bind fun r2 =>
    match r2 with
    | .inl r => .ok r
    | .inr stop => sliceOf s (start : Int) (stop : Int)

/-- The loop `for i < n` of `strings.genSplit` (with `sepSave = 0` and a one-byte separator),
with `k = n - i` iterations left at most, followed by `a[i] = s; return a[:i+1]`; the
assignments `a[i] = ...` and the slices `s[:m]`, `s[m+1:]`, `a[:i+1]` are checked. -/
def genSplitLoop (sep : Char) :
    Nat → List GoString → Nat → GoString → Except Panic (List GoString)
  | 0, a, i, s =>
    (assignAt a (i : Int) s).bind fun a1 => sliceOf a1 0 ((i : Int) + 1)
  | k + 1, a, i, s =>
    if indexInt (IndexByteString s sep) < 0 then
      (assignAt a (i : Int) s).bind fun a1 => sliceOf a1 0 ((i : Int) + 1)
    else
      (sliceOf s 0 (indexInt (IndexByteString s sep))).bind fun tok =>
      (assignAt a (i : Int) tok).bind fun a1 =>
      (sliceOf s (indexInt (IndexByteString s sep) + 1) (s.length : Int)).bind fun s1 =>
      genSplitLoop sep k a1 (i + 1) s1

/-- Go `strings.Split(s, sep)`, that is `genSplit(s, sep, 0, -1)`, for a one-byte separator:
`n = Count(s, sep) + 1`, capped at `len(s) + 1`, `a := make([]string, n)`, then the loop. -/
def Split (s : GoString) (sep : Char) : Except Panic (List GoString) :=
  genSplitLoop sep
    ((if s.count sep + 1 > s.length + 1 then s.length + 1 else s.count sep + 1) - 1)
    (List.replicate (if s.count sep + 1 > s.length + 1 then s.length + 1 else s.count sep + 1) [])
    0 s

/-- The first loop of `textproto.canonicalMIMEHeaderKey`, a `range` loop: `none` when the key
has a byte that is neither a token character nor a space, else the final `noCanon`. -/
def noCanonLoop : GoString → Bool → Option Bool
  | [], noCanon => some noCanon
  | c :: cs, noCanon =>
    if validHeaderFieldByte c then noCanonLoop cs noCanon
    else if c = ' ' then noCanonLoop cs true
    else none

/-- The second loop of `textproto.canonicalMIMEHeaderKey`, `for i, c := range a`, with the
assignment `a[i] = c` checked; `rest` are the elements from index `i` on. -/
def canonicalLoop : GoString → Nat → Bool → GoString → Except Panic GoString
  | [], _, _, a => .ok a
  | c :: cs, i, upper, a =>
    if upper ∧ 'a' ≤ c ∧ c ≤ 'z' then
      (assignAt a (i : Int) (Char.ofNat (c.toNat - 32))).bind fun a1 =>
      canonicalLoop cs (i + 1) (Char.ofNat (c.toNat - 32) = '-') a1
    else if ¬ upper ∧ 'A' ≤ c ∧ c ≤ 'Z' then
      (assignAt a (i : Int) (Char.ofNat (c.toNat + 32))).bind fun a1 =>
      canonicalLoop cs (i + 1) (Char.ofNat (c.toNat + 32) = '-') a1
    else
      (assignAt a (i : Int) c).bind fun a1 => canonicalLoop cs (i + 1) (c = '-') a1

/-- Go `textproto.canonicalMIMEHeaderKey` (the lookup in `commonHeader` returns an equal
string). -/
def canonicalMIMEHeaderKey (a : GoString) : Except Panic GoString :=
  match noCanonLoop a false with
  | none => .ok a
  | some true => .ok a
  | some false => canonicalLoop a 0 true a

/-- The loop `for i := 0; i < len(s); i++` of `textproto.CanonicalMIMEHeaderKey` with `n`
bytes left and `s[i]` checked. -/
def CanonicalMIMEHeaderKeyLoop (s : GoString) : Nat → Bool → Except Panic GoString
  | 0, _ => .ok s
  | n + 1, upper =>
    (indexAt s ((s.length - (n + 1) : Nat) : Int)).bind fun c =>
    if validHeaderFieldByte c = false then .ok s
    else if upper ∧ 'a' ≤ c ∧ c ≤ 'z' then canonicalMIMEHeaderKey s
    else if ¬ upper ∧ 'A' ≤ c ∧ c ≤ 'Z' then canonicalMIMEHeaderKey s
    else CanonicalMIMEHeaderKeyLoop s n (c = '-')

/-- Go `textproto.CanonicalMIMEHeaderKey`. -/
def CanonicalMIMEHeaderKey (s : GoString) : Except Panic GoString :=
  CanonicalMIMEHeaderKeyLoop s s.length true

/-- Go `http.Header.Get`, that is `textproto.MIMEHeader.Get`: a `nil` or empty map and a
missing key give `""`; the index `v[0]` is checked. -/
def Header.Get (h : Header) (key : GoString) : Except Panic GoString :=
  (CanonicalMIMEHeaderKey key).bind fun k =>
  if ((h.lookup k).getD []).length = 0 then .ok []
  else indexAt ((h.lookup k).getD []) 0

/-- The function `splitHostPort` of `clientip.go` over the checked `net.SplitHostPort`. -/
def splitHostPort (addr : GoString) : Except Panic (GoString × Bool) :=
  (SplitHostPort addr).bind fun r =>
  match r with
  | .ok (raddr, _) => .ok (raddr, raddr ≠ [])
  | .error _ => .ok ([], false)

/-- The loop of `fromXForwardedFor` over the checked library functions. -/
def fromXForwardedForLoop : List GoString → Except Panic (Option IP)
  | [] => .ok none
  | ip :: rest =>
    (TrimSpace ip).bind fun ip1 =>
    (splitHostPort ip1).bind fun sp =>
    (ParseIP (if sp.2 then sp.1 else ip1)).bind fun parsed =>
    match parsed with
    | some parsedIP => .ok (some parsedIP)
    | none => fromXForwardedForLoop rest

/-- The function `fromXForwardedFor` over the checked library functions. -/
def fromXForwardedFor (xfwdfor : GoString) : Except Panic (Option IP) :=
  (Split xfwdfor ',').bind fun toks => fromXForwardedForLoop toks

/-- The loop `for _, header := range headerIPs` of `FromRequest` over the checked library
functions. -/
def fromHeaderIPs (h : Header) : List GoString → Except Panic (Option IP)
  | [] => .ok none
  | header :: rest =>
    (Header.Get h header).bind fun v =>
    (ParseIP v).bind fun parsed =>
    match parsed with
    | some ip => .ok (some ip)
    | none => fromHeaderIPs h rest

/-- The function `FromRequest` on a `*http.Request`, which may be `nil` (`none`): reading
`r.Header` or `r.RemoteAddr` of a `nil` request panics. -/
def FromRequest : Option Request → Except Panic (Option IP)
  | none => .error .nilDereference
  | some r =>
    (Header.Get r.Header "x-forwarded-for".toList).bind fun xff =>
    (fromXForwardedFor xff).bind fun chain =>
    match chain with
    | some ip => .ok (some ip)
    | none =>
      (fromHeaderIPs r.Header headerIPs).bind fun alt =>
      match alt with
      | some ip => .ok (some ip)
      | none =>
        (splitHostPort r.RemoteAddr).bind fun sp =>
        ParseIP (if sp.2 then sp.1 else r.RemoteAddr)

end Checked

/-! ## Lemmas on the string functions -/

theorem IndexByteString_eq_none {s : GoString} {c : Char} :
    IndexByteString s c = none ↔ c ∉ s := by
  induction s with
  | nil => simp [IndexByteString]
  | cons x xs ih =>
    by_cases h : x = c
    · simp [IndexByteString, h]
    · simp [IndexByteString, h, ih, Ne.symm h]

theorem IndexByteString_isSome {s : GoString} {c : Char} :
    (IndexByteString s c).isSome = true ↔ c ∈ s := by
  rw [← not_iff_not, ← IndexByteString_eq_none]
  cases IndexByteString s c <;> simp

theorem IndexByteString_append {s p : GoString} {c : Char} (h : c ∉ s) :
    IndexByteString (s ++ c :: p) c = some s.length := by
  induction s with
  | nil => simp [IndexByteString]
  | cons x xs ih =>
    have hx : x ≠ c := fun e => h (by simp [e])
    have hxs : c ∉ xs := fun e => h (by simp [e])
    simp [IndexByteString, hx, ih hxs]

theorem LastIndexByteString_eq_none {s : GoString} {c : Char} :
    LastIndexByteString s c = none ↔ c ∉ s := by
  induction s with
  | nil => simp [LastIndexByteString]
  | cons x xs ih =>
    cases hl : LastIndexByteString xs c with
    | none =>
      have := ih.mp hl
      by_cases h : x = c
      · simp [LastIndexByteString, hl, h]
      · simp [LastIndexByteString, hl, h, this, Ne.symm h]
    | some i =>
      have : c ∈ xs := by
        by_contra hc
        rw [ih.mpr hc] at hl
        cases hl
      simp [LastIndexByteString, hl, this]

theorem LastIndexByteString_append {s p : GoString} {c : Char} (h : c ∉ p) :
    LastIndexByteString (s ++ c :: p) c = some s.length := by
  induction s with
  | nil => simp [LastIndexByteString, LastIndexByteString_eq_none.mpr h]
  | cons x xs ih => simp [LastIndexByteString, ih]

theorem LastIndexByteString_some {s : GoString} {c : Char} {i : Nat}
    (h : LastIndexByteString s c = some i) :
    s = s.take i ++ c :: s.drop (i + 1) ∧ c ∉ s.drop (i + 1) := by
  induction s generalizing i with
  | nil => simp [LastIndexByteString] at h
  | cons x xs ih =>
    cases hl : LastIndexByteString xs c with
    | none =>
      have hn := LastIndexByteString_eq_none.mp hl
      by_cases hx : x = c
      · simp [LastIndexByteString, hl, hx] at h
        subst h
        simp [hx, hn]
      · simp [LastIndexByteString, hl, hx] at h
    | some j =>
      simp [LastIndexByteString, hl] at h
      subst h
      have := ih hl
      simp only [List.take_succ_cons, List.drop_succ_cons, List.cons_append]
      exact ⟨by rw [← this.1], this.2⟩

theorem drop_head_decompose {s : GoString} {n : Nat} {c : Char}
    (h : (s.drop n).head? = some c) : s = s.take n ++ c :: s.drop (n + 1) := by
  induction s generalizing n with
  | nil => simp at h
  | cons x xs ih =>
    cases n with
    | zero => simp at h; simp [h]
    | succ m =>
      simp only [List.drop_succ_cons] at h
      simp only [List.take_succ_cons, List.drop_succ_cons, List.cons_append]
      rw [← ih h]

theorem TrimSpace_of_no_space {s : GoString} (h : ∀ c ∈ s, isSpace c = false) :
    TrimSpace s = s := by
  have h1 : s.dropWhile isSpace = s := by
    cases s with
    | nil => rfl
    | cons x xs => simp [List.dropWhile, h x (by simp)]
  have h2 : s.reverse.dropWhile isSpace = s.reverse := by
    cases hr : s.reverse with
    | nil => rfl
    | cons x xs =>
      have : x ∈ s := by
        have : x ∈ s.reverse := by simp [hr]
        simpa using this
      simp [List.dropWhile, h x this]
  simp [TrimSpace, h1, h2]

theorem Split_of_no_sep {s : GoString} {sep : Char} (h : sep ∉ s) : Split s sep = [s] := by
  induction s with
  | nil => rfl
  | cons x xs ih =>
    have hx : x ≠ sep := fun e => h (by simp [e])
    have hxs : sep ∉ xs := fun e => h (by simp [e])
    simp [Split, hx, ih hxs]

theorem Split_ne_nil (s : GoString) (sep : Char) : Split s sep ≠ [] := by
  cases s with
  | nil => simp [Split]
  | cons x xs =>
    by_cases hx : x = sep
    · simp [Split, hx]
    · cases hs : Split xs sep <;> simp [Split, hx, hs]

/-- Joining the pieces of `Split` with the separator gives the string back. -/
theorem Split_intercalate (s : GoString) (sep : Char) :
    List.intercalate [sep] (Split s sep) = s := by
  induction s with
  | nil => simp [Split, List.intercalate]
  | cons x xs ih =>
    by_cases hx : x = sep
    · cases hs : Split xs sep with
      | nil => exact absurd hs (Split_ne_nil xs sep)
      | cons t ts =>
        rw [hs] at ih
        simp only [Split, hx, if_true, hs]
        simp only [List.intercalate, List.intersperse, List.flatten] at ih ⊢
        simp [ih]
    · cases hs : Split xs sep with
      | nil => exact absurd hs (Split_ne_nil xs sep)
      | cons t ts =>
        rw [hs] at ih
        simp only [Split, hx, if_false, hs]
        cases ts with
        | nil =>
          simp only [List.intercalate, List.intersperse, List.flatten] at ih ⊢
          simp at ih ⊢
          exact ih
        | cons u us =>
          simp only [List.intercalate, List.intersperse, List.flatten] at ih ⊢
          simp at ih ⊢
          exact ih

/-- No piece of `Split` contains the separator. -/
theorem Split_no_sep (s : GoString) (sep : Char) : ∀ t ∈ Split s sep, sep ∉ t := by
  induction s with
  | nil => simp [Split]
  | cons x xs ih =>
    by_cases hx : x = sep
    · intro t ht
      simp only [Split, hx, if_true, List.mem_cons] at ht
      rcases ht with rfl | ht
      · simp
      · exact ih t ht
    · cases hs : Split xs sep with
      | nil => exact absurd hs (Split_ne_nil xs sep)
      | cons u us =>
        rw [hs] at ih
        intro t ht
        simp only [Split, hx, if_false, hs, List.mem_cons] at ht
        rcases ht with rfl | ht
        · have := ih u (by simp)
          simp [this, Ne.symm hx]
        · exact ih t (by simp [ht])

/-! ## Lemmas on `net.SplitHostPort` -/

theorem SplitHostPort_no_colon {s : GoString} (h : ':' ∉ s) :
    SplitHostPort s = .error .missingPort := by
  simp [SplitHostPort, LastIndexByteString_eq_none.mpr h]

theorem SplitHostPort_many_colons {s : GoString} (hb : s.head? ≠ some '[')
    (h : 2 ≤ s.count ':') : SplitHostPort s = .error .tooManyColons := by
  cases hl : LastIndexByteString s ':' with
  | none =>
    have := LastIndexByteString_eq_none.mp hl
    have : s.count ':' = 0 := List.count_eq_zero.mpr this
    omega
  | some i =>
    obtain ⟨hdec, hno⟩ := LastIndexByteString_some hl
    have hc : s.count ':' = (s.take i).count ':' + 1 := by
      conv_lhs => rw [hdec]
      simp [List.count_append, List.count_cons, List.count_eq_zero.mpr hno]
    have hmem : ':' ∈ s.take i := by
      apply List.count_pos_iff.mp
      omega
    simp [SplitHostPort, hl, hb, IndexByteString_isSome.mpr hmem]

theorem SplitHostPort_host_port {s p : GoString} (hs : ∀ c ∈ s, c ≠ ':' ∧ c ≠ '[' ∧ c ≠ ']')
    (hp : ∀ c ∈ p, c ≠ ':' ∧ c ≠ '[' ∧ c ≠ ']') :
    SplitHostPort (s ++ ':' :: p) = .ok (s, p) := by
  have hpc : ':' ∉ p := fun h => (hp _ h).1 rfl
  have hsc : ':' ∉ s := fun h => (hs _ h).1 rfl
  have hhead : (s ++ ':' :: p).head? ≠ some '[' := by
    cases s with
    | nil => simp
    | cons x xs => simpa using (hs x (by simp)).2.1
  have ho : '[' ∉ s ++ ':' :: p := by
    simp only [List.mem_append, List.mem_cons]
    rintro (h | h | h)
    · exact (hs _ h).2.1 rfl
    · cases h
    · exact (hp _ h).2.1 rfl
  have hcl : ']' ∉ s ++ ':' :: p := by
    simp only [List.mem_append, List.mem_cons]
    rintro (h | h | h)
    · exact (hs _ h).2.2 rfl
    · cases h
    · exact (hp _ h).2.2 rfl
  have hi1 : IndexByteString (s ++ ':' :: p) '[' = none := IndexByteString_eq_none.mpr ho
  have hi2 : IndexByteString (s ++ ':' :: p) ']' = none := IndexByteString_eq_none.mpr hcl
  have hi3 : IndexByteString s ':' = none := IndexByteString_eq_none.mpr hsc
  simp only [SplitHostPort, LastIndexByteString_append hpc]
  rw [if_neg hhead]
  simp [splitHostPortTail, hi1, hi2, hi3]

theorem SplitHostPort_bracket {b p : GoString} (hb : ∀ c ∈ b, c ≠ '[' ∧ c ≠ ']')
    (hp : ∀ c ∈ p, c ≠ ':' ∧ c ≠ '[' ∧ c ≠ ']') :
    SplitHostPort ('[' :: (b ++ ']' :: ':' :: p)) = .ok (b, p) := by
  have hpc : ':' ∉ p := fun h => (hp _ h).1 rfl
  have hl : LastIndexByteString ('[' :: (b ++ ']' :: ':' :: p)) ':' = some (b.length + 2) := by
    have := LastIndexByteString_append (s := '[' :: (b ++ [']'])) (c := ':') hpc
    simpa using this
  have hbc : ']' ∉ '[' :: b := by
    simp only [List.mem_cons]
    rintro (h | h)
    · cases h
    · exact (hb _ h).2 rfl
  have he : IndexByteString ('[' :: (b ++ ']' :: ':' :: p)) ']' = some (b.length + 1) := by
    have := IndexByteString_append (s := '[' :: b) (p := ':' :: p) (c := ']') hbc
    simpa using this
  have ho : '[' ∉ b ++ ']' :: ':' :: p := by
    simp only [List.mem_append, List.mem_cons]
    rintro (h | h | h | h)
    · exact (hb _ h).1 rfl
    · cases h
    · cases h
    · exact (hp _ h).2.1 rfl
  have hcl : ']' ∉ ':' :: p := by
    simp only [List.mem_cons]
    rintro (h | h)
    · cases h
    · exact (hp _ h).2.2 rfl
  have hd : List.drop (b.length + 1) (b ++ ']' :: ':' :: p) = ':' :: p := by
    have : b.length + 1 = (b ++ [']']).length := by simp
    rw [this, show b ++ ']' :: ':' :: p = (b ++ [']']) ++ ':' :: p by simp,
      List.drop_left]
  have hd2 : List.drop (b.length + 2) (b ++ ']' :: ':' :: p) = p := by
    have : b.length + 2 = (b ++ [']', ':']).length := by simp
    rw [this, show b ++ ']' :: ':' :: p = (b ++ [']', ':']) ++ p by simp,
      List.drop_left]
  have ht : List.take (b.length + 1) ('[' :: (b ++ ']' :: ':' :: p)) = '[' :: b := by
    simp [List.take_succ_cons]
  simp only [SplitHostPort, hl, he, List.head?_cons, if_true, List.length_cons,
    List.length_append]
  have h1 : ¬ (b.length + 1 + 1 = b.length + (p.length + 1 + 1) + 1) := by omega
  simp only [h1, if_false, if_true, splitHostPortTail, ht, List.drop_succ_cons, List.drop_zero,
    IndexByteString_eq_none.mpr ho, hd]
  simp [IndexByteString_eq_none.mpr hcl, hd2]

/-! ## Lemmas on `net.ParseIP` -/

theorem range_char_facts {c : Char} (lo hi : Nat) (h1 : lo ≤ c.toNat) (h2 : c.toNat ≤ hi)
    (hlo : 48 ≤ lo) (hhi : hi ≤ 102) (hgap : hi < 58 ∨ (65 ≤ lo ∧ hi < 91) ∨ 97 ≤ lo) :
    c ≠ ',' ∧ c ≠ '[' ∧ c ≠ ']' ∧ c ≠ '%' ∧ isSpace c = false := by
  refine ⟨?_, ?_, ?_, ?_, ?_⟩
  · rintro rfl
    have : (',' : Char).toNat = 44 := by decide
    omega
  · rintro rfl
    have : ('[' : Char).toNat = 91 := by decide
    omega
  · rintro rfl
    have : (']' : Char).toNat = 93 := by decide
    omega
  · rintro rfl
    have : ('%' : Char).toNat = 37 := by decide
    omega
  · simp only [isSpace, Bool.or_eq_false_iff, Bool.and_eq_false_iff, decide_eq_false_iff_not]
    omega

theorem addrByte_facts {c : Char} (h : addrByte c = true) :
    c ≠ ',' ∧ c ≠ '[' ∧ c ≠ ']' ∧ c ≠ '%' ∧ isSpace c = false := by
  simp only [addrByte, Bool.or_eq_true, decide_eq_true_eq] at h
  rcases h with (h | rfl) | rfl
  · unfold hexVal at h
    split_ifs at h with h1 h2 h3
    · exact range_char_facts 48 57 h1.1 h1.2 (by omega) (by omega) (by omega)
    · exact range_char_facts 97 102 h2.1 h2.2 (by omega) (by omega) (by omega)
    · exact range_char_facts 65 70 h3.1 h3.2 (by omega) (by omega) (by omega)
    · simp at h
  · decide
  · decide

theorem addrByte_of_digit {c : Char} (h : '0' ≤ c ∧ c ≤ '9') : addrByte c = true := by
  simp [addrByte, hexVal, h]

theorem addrByte_of_hex {c : Char} {v : Nat} (h : hexVal c = some v) : addrByte c = true := by
  simp [addrByte, h]

theorem hexVal_ne_colon {c : Char} {v : Nat} (h : hexVal c = some v) : c ≠ ':' := by
  rintro rfl
  have : hexVal ':' = none := by decide
  rw [this] at h
  cases h

theorem parseIPv4FieldsLoop_chars {s : GoString} {i : Nat} {prev : Option Char}
    {val pos digLen : Nat} {fields : List Nat} {r : Nat × Nat × List Nat}
    (h : parseIPv4FieldsLoop s i prev val pos digLen fields = some r) :
    ∀ c ∈ s, addrByte c = true ∧ c ≠ ':' := by
  induction s generalizing i prev val pos digLen fields with
  | nil => simp
  | cons x xs ih =>
    unfold parseIPv4FieldsLoop at h
    split_ifs at h with h1 h2 h3 h4 h5 h6
    · intro c hc
      rcases List.mem_cons.mp hc with rfl | hc
      · refine ⟨addrByte_of_digit h1, ?_⟩
        rintro rfl
        revert h1
        decide
      · exact ih h c hc
    · intro c hc
      rcases List.mem_cons.mp hc with rfl | hc
      · subst h4
        exact ⟨by decide, by decide⟩
      · exact ih h c hc

theorem parseIPv4Fields_chars {s : GoString} {fields r : List Nat}
    (h : parseIPv4Fields s fields = some r) : ∀ c ∈ s, addrByte c = true ∧ c ≠ ':' := by
  unfold parseIPv4Fields at h
  split at h
  · cases h
  · next hl => exact parseIPv4FieldsLoop_chars hl

theorem scanHex_spec {s : GoString} {off acc off1 acc1 : Nat}
    (h : scanHex s off acc = some (off1, acc1)) :
    off ≤ off1 ∧ ∀ c ∈ s.take (off1 - off), addrByte c = true ∧ c ≠ ':' := by
  induction s generalizing off acc with
  | nil =>
    simp only [scanHex, Option.some.injEq, Prod.mk.injEq] at h
    simp [h.1]
  | cons x xs ih =>
    unfold scanHex at h
    split at h
    · simp only [Option.some.injEq, Prod.mk.injEq] at h
      simp [h.1]
    · next v hv =>
      split_ifs at h with h1 h2
      obtain ⟨hle, hall⟩ := ih h
      refine ⟨by omega, ?_⟩
      have : off1 - off = (off1 - (off + 1)) + 1 := by omega
      rw [this, List.take_succ_cons]
      intro c hc
      rcases List.mem_cons.mp hc with rfl | hc
      · exact ⟨addrByte_of_hex hv, hexVal_ne_colon hv⟩
      · exact hall c hc

theorem drop_eq_cons {s : GoString} {n : Nat} {c : Char}
    (h : (s.drop n).head? = some c) : s.drop n = c :: s.drop (n + 1) := by
  have h1 := drop_head_decompose h
  have h2 := (List.take_append_drop n s).symm
  rw [h2] at h1
  have h3 : s.take n ++ s.drop n = s.take n ++ c :: s.drop (n + 1) := by
    rw [← h2] at h1
    rw [List.take_append_drop]
    exact h1
  exact List.append_cancel_left h3

theorem parseIPv6Loop_spec {k : Nat} {s rest : GoString} {ell ell1 : Int} {ip ip1 : List Nat}
    {i : Nat} (h : parseIPv6Loop k s ell ip = some (rest, i, ell1, ip1)) :
    (∃ pre, s = pre ++ rest ∧ ∀ c ∈ pre, addrByte c = true) ∧
    (0 ≤ ell → ell1 = ell) ∧
    (ell < 0 → (0 ≤ ell1 → 2 ≤ s.count ':') ∧ (ell1 < 0 → ¬ i < 16 → k ≤ s.count ':' + 2)) := by
  induction k generalizing s ell ip with
  | zero =>
    simp only [parseIPv6Loop, Option.some.injEq, Prod.mk.injEq] at h
    obtain ⟨rfl, rfl, rfl, rfl⟩ := h
    exact ⟨⟨[], by simp⟩, fun _ => rfl, fun _ => ⟨fun h1 => by omega, fun _ _ => by omega⟩⟩
  | succ k ih =>
    unfold parseIPv6Loop at h
    split at h
    · cases h
    · next off acc hscan =>
      obtain ⟨-, hhex⟩ := scanHex_spec hscan
      simp only [Nat.sub_zero] at hhex
      have hsplit := (List.take_append_drop off s).symm
      split_ifs at h with h1 h2 h3 h4 h5 h6 h7 h8 h9 h10
      · -- a dot follows the group: the rest is an embedded IPv4 address
        split at h
        · cases h
        · next fields hf =>
          simp only [Option.some.injEq, Prod.mk.injEq] at h
          obtain ⟨rfl, rfl, rfl, rfl⟩ := h
          refine ⟨⟨s, by simp, fun c hc => (parseIPv4Fields_chars hf c hc).1⟩, fun _ => rfl,
            fun hneg => ⟨fun hpos => by omega, fun _ _ => ?_⟩⟩
          have : 16 - 2 * (k + 1) = 12 := by
            by_contra hne
            exact h3 ⟨hneg, hne⟩
          omega
      · -- the group ends the string
        simp only [Option.some.injEq, Prod.mk.injEq] at h
        obtain ⟨rfl, rfl, rfl, rfl⟩ := h
        rw [h5, List.append_nil] at hsplit
        refine ⟨⟨s, by simp, fun c hc => ?_⟩, fun _ => rfl,
          fun hneg => ⟨fun hpos => by omega, fun _ hi => by omega⟩⟩
        rw [hsplit] at hc
        exact (hhex c hc).1
      · -- a double colon ends the string
        simp only [Option.some.injEq, Prod.mk.injEq] at h
        obtain ⟨rfl, rfl, rfl, rfl⟩ := h
        have d0 := drop_eq_cons (not_not.mp h6)
        have d1 := drop_eq_cons h8
        rw [show off + 1 + 1 = off + 2 from rfl, h10] at d1
        rw [d0, d1] at hsplit
        refine ⟨⟨s, by simp, fun c hc => ?_⟩, fun hpos => by omega,
          fun hneg => ⟨fun _ => ?_, fun hlt => by omega⟩⟩
        · rw [hsplit] at hc
          simp only [List.mem_append, List.mem_cons, List.mem_nil_iff, or_false] at hc
          rcases hc with hc | rfl | rfl
          · exact (hhex c hc).1
          · decide
          · decide
        · rw [hsplit]
          simp [List.count_append, List.count_cons]
      · -- a double colon, and the string goes on
        have d0 := drop_eq_cons (not_not.mp h6)
        have d1 := drop_eq_cons h8
        rw [show off + 1 + 1 = off + 2 from rfl] at d1
        rw [d0, d1] at hsplit
        obtain ⟨⟨pre, hpre, hall⟩, hkeep, -⟩ := ih h
        have hell : ell1 = ((16 - 2 * k : Nat) : Int) := hkeep (by omega)
        refine ⟨⟨s.take off ++ ':' :: ':' :: pre, ?_, fun c hc => ?_⟩, fun hpos => by omega,
          fun hneg => ⟨fun _ => ?_, fun hlt => by omega⟩⟩
        · conv_lhs => rw [hsplit, hpre]
          simp
        · simp only [List.mem_append, List.mem_cons] at hc
          rcases hc with hc | rfl | rfl | hc
          · exact (hhex c hc).1
          · decide
          · decide
          · exact hall c hc
        · rw [hsplit]
          simp only [List.count_append, List.count_cons, beq_self_eq_true, if_true]
          omega
      · -- a single colon
        have d0 := drop_eq_cons (not_not.mp h6)
        rw [d0] at hsplit
        obtain ⟨⟨pre, hpre, hall⟩, hkeep, hcount⟩ := ih h
        have hc1 : s.count ':' = (s.take off).count ':' + 1 + (s.drop (off + 1)).count ':' := by
          conv_lhs => rw [hsplit]
          simp only [List.count_append, List.count_cons, beq_self_eq_true, if_true]
          omega
        refine ⟨⟨s.take off ++ ':' :: pre, ?_, fun c hc => ?_⟩, hkeep,
          fun hneg => ⟨fun hpos => ?_, fun hlt hi => ?_⟩⟩
        · conv_lhs => rw [hsplit, hpre]
          simp
        · simp only [List.mem_append, List.mem_cons] at hc
          rcases hc with hc | rfl | hc
          · exact (hhex c hc).1
          · decide
          · exact hall c hc
        · have := (hcount hneg).1 hpos
          omega
        · have := (hcount hneg).2 hlt hi
          omega

theorem WithZone_Zone (ip : List Nat) (zone : GoString) :
    ((AddrFrom16 ip).WithZone zone).Zone = zone := by
  by_cases hz : zone = []
  · simp [AddrFrom16, Addr.WithZone, Addr.Zone, hz]
  · simp [AddrFrom16, Addr.WithZone, Addr.Zone, hz]

theorem take_two_eq {s : GoString} {a b : Char} (h : s.take 2 = [a, b]) :
    s = a :: b :: s.drop 2 := by
  match s, h with
  | x :: y :: t, h =>
    simp only [List.take_succ_cons, List.take_zero, List.cons.injEq, and_true] at h
    simp [h.1, h.2]

theorem parseIPv6_spec {s : GoString} {a : Addr} (h : parseIPv6 s = some a)
    (hz : a.Zone = []) : (∀ c ∈ s, addrByte c = true) ∧ 2 ≤ s.count ':' := by
  unfold parseIPv6 at h
  cases hp : IndexByteString s '%' with
  | some j =>
    exfalso
    simp only [hp, Option.isSome_some, true_and] at h
    by_cases h1 : List.drop (j + 1) s = []
    · simp [h1] at h
    · simp only [h1, if_false] at h
      split_ifs at h with h2
      · simp only [Option.some.injEq] at h
        rw [← h, WithZone_Zone] at hz
        exact h1 hz
      all_goals
        split at h
        · cases h
        · split_ifs at h
          all_goals
            simp only [Option.some.injEq] at h
            rw [← h, WithZone_Zone] at hz
            exact h1 hz
  | none =>
    simp only [hp, Option.isSome_none, Bool.false_eq_true, false_and, if_false] at h
    by_cases hl : s.take 2 = [':', ':']
    · have hs := take_two_eq hl
      simp only [hl, if_true, true_and] at h
      split_ifs at h with h2
      · rw [h2] at hs
        subst hs
        exact ⟨by decide, by decide⟩
      · split at h
        · cases h
        · next rest i ell ip hloop =>
          obtain ⟨⟨pre, hpre, hall⟩, hkeep, -⟩ := parseIPv6Loop_spec hloop
          have hell := hkeep (le_refl 0)
          split_ifs at h with h3 h4 h5 h6
          · -- the ellipsis was expanded
            simp only [ne_eq, not_not] at h3
            subst h3
            simp only [List.append_nil] at hpre
            rw [hpre] at hs
            refine ⟨fun c hc => ?_, ?_⟩
            · rw [hs] at hc
              simp only [List.mem_cons] at hc
              rcases hc with rfl | rfl | hc
              · decide
              · decide
              · exact hall c hc
            · rw [hs]
              simp [List.count_cons]
          · omega
    · simp only [hl, if_false, false_and] at h
      split at h
      · cases h
      · next rest i ell ip hloop =>
        obtain ⟨⟨pre, hpre, hall⟩, -, hcount⟩ := parseIPv6Loop_spec hloop
        split_ifs at h with h3 h4 h5 h6
        · simp only [ne_eq, not_not] at h3
          subst h3
          simp only [List.append_nil] at hpre
          subst hpre
          exact ⟨hall, (hcount (by omega)).1 (by omega)⟩
        · simp only [ne_eq, not_not] at h3
          subst h3
          simp only [List.append_nil] at hpre
          subst hpre
          have := (hcount (by omega)).2 (by omega) h4
          exact ⟨hall, by omega⟩

theorem ParseAddrLoop_cases {s cs : GoString} {a : Addr} (h : ParseAddrLoop s cs = some a) :
    parseIPv4 s = some a ∨ parseIPv6 s = some a := by
  induction cs with
  | nil => simp [ParseAddrLoop] at h
  | cons x xs ih =>
    unfold ParseAddrLoop at h
    split_ifs at h with h1 h2 h3
    · exact Or.inl h
    · exact Or.inr h
    · exact ih h

theorem parseIPv4_chars {s : GoString} {a : Addr} (h : parseIPv4 s = some a) :
    ∀ c ∈ s, addrByte c = true ∧ c ≠ ':' := by
  unfold parseIPv4 at h
  split at h
  · cases h
  · next hf => exact parseIPv4Fields_chars hf

/-- A string that `net.ParseIP` accepts consists of hexadecimal digits, dots and colons. -/
theorem ParseIP_chars {s : GoString} {a : IP} (h : ParseIP s = some a) :
    ∀ c ∈ s, addrByte c = true := by
  unfold ParseIP at h
  split at h
  · cases h
  · next ad hp =>
    split_ifs at h with hz
    rcases ParseAddrLoop_cases hp with h4 | h6
    · exact fun c hc => (parseIPv4_chars h4 c hc).1
    · exact (parseIPv6_spec h6 (not_not.mp hz)).1

/-- A string with a colon that `net.ParseIP` accepts has at least two colons. -/
theorem ParseIP_colons {s : GoString} {a : IP} (h : ParseIP s = some a) (hc : ':' ∈ s) :
    2 ≤ s.count ':' := by
  unfold ParseIP at h
  split at h
  · cases h
  · next ad hp =>
    split_ifs at h with hz
    rcases ParseAddrLoop_cases hp with h4 | h6
    · exact absurd rfl (parseIPv4_chars h4 _ hc).2
    · exact (parseIPv6_spec h6 (not_not.mp hz)).2

theorem ParseIP_nil : ParseIP [] = none := by decide

theorem ParseIP_ne_nil {s : GoString} {a : IP} (h : ParseIP s = some a) : s ≠ [] := by
  rintro rfl
  rw [ParseIP_nil] at h
  cases h

theorem ParseIP_head {s : GoString} {a : IP} (h : ParseIP s = some a) :
    s.head? ≠ some '[' := by
  cases s with
  | nil => simp
  | cons x xs =>
    have := (addrByte_facts (ParseIP_chars h x (by simp))).2.1
    simpa using this

/-! ## Lemmas on `clientip.go` -/

theorem splitHostPort_of_ParseIP {s : GoString} {a : IP} (h : ParseIP s = some a) :
    splitHostPort s = ([], false) := by
  by_cases hc : ':' ∈ s
  · simp [splitHostPort, SplitHostPort_many_colons (ParseIP_head h) (ParseIP_colons h hc)]
  · simp [splitHostPort, SplitHostPort_no_colon hc]

theorem fromXForwardedForLoop_eq_some {toks : List GoString} {a : IP} :
    fromXForwardedForLoop toks = some a ↔
      ∃ pre t post, toks = pre ++ t :: post ∧
        (∀ u ∈ pre, ParseIP (chainToken u) = none) ∧ ParseIP (chainToken t) = some a := by
  induction toks with
  | nil => simp [fromXForwardedForLoop]
  | cons x xs ih =>
    cases hx : ParseIP (chainToken x) with
    | some b =>
      have hx1 := hx
      simp only [chainToken] at hx1
      simp only [fromXForwardedForLoop, hx1, Option.some.injEq]
      constructor
      · rintro rfl
        exact ⟨[], x, xs, rfl, by simp, hx⟩
      · rintro ⟨pre, t, post, heq, hpre, ht⟩
        cases pre with
        | nil =>
          simp only [List.nil_append, List.cons.injEq] at heq
          rw [← heq.1, hx] at ht
          exact Option.some.inj ht
        | cons u us =>
          simp only [List.cons_append, List.cons.injEq] at heq
          have := hpre u (by simp)
          rw [← heq.1, hx] at this
          cases this
    | none =>
      have hx1 := hx
      simp only [chainToken] at hx1
      simp only [fromXForwardedForLoop, hx1, ih]
      constructor
      · rintro ⟨pre, t, post, heq, hpre, ht⟩
        refine ⟨x :: pre, t, post, by simp [heq], ?_, ht⟩
        intro u hu
        rcases List.mem_cons.mp hu with rfl | hu
        · exact hx
        · exact hpre u hu
      · rintro ⟨pre, t, post, heq, hpre, ht⟩
        cases pre with
        | nil =>
          simp only [List.nil_append, List.cons.injEq] at heq
          rw [← heq.1, hx] at ht
          cases ht
        | cons u us =>
          simp only [List.cons_append, List.cons.injEq] at heq
          exact ⟨us, t, post, heq.2, fun v hv => hpre v (by simp [hv]), ht⟩

theorem fromXForwardedForLoop_eq_none {toks : List GoString} :
    fromXForwardedForLoop toks = none ↔ ∀ t ∈ toks, ParseIP (chainToken t) = none := by
  induction toks with
  | nil => simp [fromXForwardedForLoop]
  | cons x xs ih =>
    cases hx : ParseIP (chainToken x) with
    | some b =>
      have hx1 := hx
      simp only [chainToken] at hx1
      simp [fromXForwardedForLoop, hx1, hx]
    | none =>
      have hx1 := hx
      simp only [chainToken] at hx1
      simp [fromXForwardedForLoop, hx1, hx, ih]

theorem fromHeaderIPs_eq_none {h : Header} {names : List GoString} :
    fromHeaderIPs h names = none ↔ ∀ n ∈ names, ParseIP (h.Get n) = none := by
  induction names with
  | nil => simp [fromHeaderIPs]
  | cons x xs ih =>
    cases hx : ParseIP (h.Get x) with
    | some b => simp [fromHeaderIPs, hx]
    | none => simp [fromHeaderIPs, hx, ih]

theorem fromHeaderIPs_first {h : Header} {pre post : List GoString} {name : GoString} {a : IP}
    (hpre : ∀ n ∈ pre, ParseIP (h.Get n) = none) (hname : ParseIP (h.Get name) = some a) :
    fromHeaderIPs h (pre ++ name :: post) = some a := by
  induction pre with
  | nil => simp [fromHeaderIPs, hname]
  | cons x xs ih =>
    have hx := hpre x (by simp)
    simp only [List.cons_append, fromHeaderIPs, hx]
    exact ih (fun n hn => hpre n (by simp [hn]))

theorem FromRequest_fallback {r : Request}
    (hchain : fromXForwardedFor (r.Header.Get headerXForwardedFor) = none)
    (halt : ∀ n ∈ headerIPs, ParseIP (r.Header.Get n) = none) :
    FromRequest r = ParseIP (peerHost r.RemoteAddr) := by
  simp only [headerXForwardedFor] at hchain
  simp only [FromRequest, hchain, fromHeaderIPs_eq_none.mpr halt, peerHost]

theorem no_headers_chain {r : Request}
    (hh : ∀ n ∈ headerXForwardedFor :: headerIPs, r.Header.Get n = []) :
    fromXForwardedFor (r.Header.Get headerXForwardedFor) = none ∧
      ∀ n ∈ headerIPs, ParseIP (r.Header.Get n) = none := by
  refine ⟨?_, fun n hn => ?_⟩
  · rw [hh _ (by simp)]
    decide
  · rw [hh n (by simp [hn])]
    exact ParseIP_nil

theorem isDigit_facts {c : Char} (h : c.isDigit = true) : c ≠ ':' ∧ c ≠ '[' ∧ c ≠ ']' := by
  refine ⟨?_, ?_, ?_⟩ <;>
  · rintro rfl
    revert h
    decide

/-! ## The claims -/

/-- C1: when `fromXForwardedFor` applied to the value of the `x-forwarded-for` header yields an
address `a`, `FromRequest` returns exactly `a`; a second request `r'` with the same
`x-forwarded-for` value and any other headers and peer address also gets `a`. -/
theorem FromRequest_chain_priority (r r' : Request) (a : IP)
    (hsame : r'.Header.Get headerXForwardedFor = r.Header.Get headerXForwardedFor)
    (h : fromXForwardedFor (r.Header.Get headerXForwardedFor) = some a) :
    FromRequest r = some a ∧ FromRequest r' = some a := by
  have h' := h
  rw [← hsame] at h'
  simp only [headerXForwardedFor] at h h'
  simp only [FromRequest, h, h', and_self]

theorem FromRequest_chain_priority_witness :
    (Header.Get [("X-Forwarded-For".toList, ["203.0.113.5".toList]),
        ("X-Real-Ip".toList, ["198.51.100.7".toList])] headerXForwardedFor
      = Header.Get [("X-Forwarded-For".toList, ["203.0.113.5".toList])] headerXForwardedFor) ∧
    fromXForwardedFor (Header.Get [("X-Forwarded-For".toList, ["203.0.113.5".toList])]
      headerXForwardedFor) = some (IPv4 203 0 113 5) ∧
    FromRequest ⟨[("X-Forwarded-For".toList, ["203.0.113.5".toList])], "192.0.2.10:54321".toList⟩
      = some (IPv4 203 0 113 5) ∧
    FromRequest ⟨[("X-Forwarded-For".toList, ["203.0.113.5".toList]),
        ("X-Real-Ip".toList, ["198.51.100.7".toList])], "[2001:db8::1]:443".toList⟩
      = some (IPv4 203 0 113 5) :=
  ⟨by decide, by decide,
    FromRequest_chain_priority
      ⟨[("X-Forwarded-For".toList, ["203.0.113.5".toList])], "192.0.2.10:54321".toList⟩
      ⟨[("X-Forwarded-For".toList, ["203.0.113.5".toList]),
        ("X-Real-Ip".toList, ["198.51.100.7".toList])], "[2001:db8::1]:443".toList⟩
      (IPv4 203 0 113 5) (by decide) (by decide)⟩

/-- C2: `fromXForwardedFor` splits the chain value on `,` (the pieces contain no comma and
joined by commas give the value back) and returns the address of the left-most token that
parses after trimming and host replacement (`chainToken`); every token before it fails to
parse; the result is absent exactly when every token fails. For
`"unknown, 203.0.113.5, 10.0.0.1"` the result is 203.0.113.5. -/
theorem fromXForwardedFor_leftmost_valid (xfwdfor : GoString) :
    (List.intercalate [','] (Split xfwdfor ',') = xfwdfor ∧
      ∀ t ∈ Split xfwdfor ',', ',' ∉ t) ∧
    (∀ a, fromXForwardedFor xfwdfor = some a ↔
      ∃ pre t post, Split xfwdfor ',' = pre ++ t :: post ∧
        (∀ u ∈ pre, ParseIP (chainToken u) = none) ∧ ParseIP (chainToken t) = some a) ∧
    (fromXForwardedFor xfwdfor = none ↔
      ∀ t ∈ Split xfwdfor ',', ParseIP (chainToken t) = none) ∧
    fromXForwardedFor "unknown, 203.0.113.5, 10.0.0.1".toList = some (IPv4 203 0 113 5) :=
  ⟨⟨Split_intercalate xfwdfor ',', Split_no_sep xfwdfor ','⟩,
    fun _ => fromXForwardedForLoop_eq_some, fromXForwardedForLoop_eq_none, by decide⟩

/-- C3: when the chain parser yields absent and some alternative header parses, `FromRequest`
returns the parsed value of the first such header in the fixed order; the hypotheses constrain
only that header and the ones before it, so later headers and the peer address play no part. -/
theorem FromRequest_first_alternative (r : Request) (pre post : List GoString)
    (name : GoString) (a : IP)
    (hchain : fromXForwardedFor (r.Header.Get headerXForwardedFor) = none)
    (horder : ["x-client-ip".toList, "cf-connecting-ip".toList, "fastly-client-ip".toList,
      "true-client-ip".toList, "x-real-ip".toList, "x-cluster-client-ip".toList,
      "x-forwarded".toList, "forwarded-for".toList] = pre ++ name :: post)
    (hpre : ∀ n ∈ pre, ParseIP (r.Header.Get n) = none)
    (hname : ParseIP (r.Header.Get name) = some a) :
    FromRequest r = some a := by
  have hlist : headerIPs = pre ++ name :: post := horder
  simp only [headerXForwardedFor] at hchain
  simp only [FromRequest, hchain, hlist, fromHeaderIPs_first hpre hname]

theorem FromRequest_first_alternative_witness :
    FromRequest ⟨[("X-Forwarded-For".toList, ["unknown".toList]),
        ("Cf-Connecting-Ip".toList, ["not an address".toList]),
        ("True-Client-Ip".toList, ["198.51.100.7".toList]),
        ("X-Real-Ip".toList, ["203.0.113.5".toList])], "192.0.2.10:54321".toList⟩
      = some (IPv4 198 51 100 7) :=
  FromRequest_first_alternative
    ⟨[("X-Forwarded-For".toList, ["unknown".toList]),
        ("Cf-Connecting-Ip".toList, ["not an address".toList]),
        ("True-Client-Ip".toList, ["198.51.100.7".toList]),
        ("X-Real-Ip".toList, ["203.0.113.5".toList])], "192.0.2.10:54321".toList⟩
    ["x-client-ip".toList, "cf-connecting-ip".toList, "fastly-client-ip".toList]
    ["x-real-ip".toList, "x-cluster-client-ip".toList, "x-forwarded".toList,
      "forwarded-for".toList]
    "true-client-ip".toList (IPv4 198 51 100 7) (by decide) (by decide) (by decide) (by decide)

/-- C4: when the `x-forwarded-for` value is a string `s` that `net.ParseIP` accepts (a valid
IPv4 or IPv6 literal), `splitHostPort` does not succeed on `s`, and `fromXForwardedFor` and
`FromRequest` return the address `s` denotes, whatever the other headers and the peer address
are. -/
theorem FromRequest_single_chain_literal (r : Request) (s : GoString) (a : IP)
    (hs : ParseIP s = some a) (hx : r.Header.Get headerXForwardedFor = s) :
    (splitHostPort s).2 = false ∧ fromXForwardedFor s = some a ∧ FromRequest r = some a := by
  have hchars := ParseIP_chars hs
  have hcomma : ',' ∉ s := fun hc => (addrByte_facts (hchars _ hc)).1 rfl
  have htrim : TrimSpace s = s :=
    TrimSpace_of_no_space (fun c hc => (addrByte_facts (hchars c hc)).2.2.2.2)
  have hsplit := splitHostPort_of_ParseIP hs
  have hchain : fromXForwardedFor s = some a := by
    simp [fromXForwardedFor, Split_of_no_sep hcomma, fromXForwardedForLoop, htrim, hsplit, hs]
  refine ⟨by rw [hsplit], hchain, ?_⟩
  simp only [headerXForwardedFor] at hx
  simp only [FromRequest, hx, hchain]

theorem FromRequest_single_chain_literal_witness :
    ParseIP "2001:db8::1".toList = some [0x20, 0x01, 0x0d, 0xb8, 0, 0, 0, 0, 0, 0, 0, 0, 0, 0, 0, 1] ∧
    (splitHostPort "2001:db8::1".toList).2 = false ∧
    fromXForwardedFor "2001:db8::1".toList
      = some [0x20, 0x01, 0x0d, 0xb8, 0, 0, 0, 0, 0, 0, 0, 0, 0, 0, 0, 1] ∧
    FromRequest ⟨[("X-Forwarded-For".toList, ["2001:db8::1".toList]),
        ("X-Real-Ip".toList, ["198.51.100.7".toList])], "192.0.2.10:54321".toList⟩
      = some [0x20, 0x01, 0x0d, 0xb8, 0, 0, 0, 0, 0, 0, 0, 0, 0, 0, 0, 1] :=
  ⟨by decide,
    FromRequest_single_chain_literal
      ⟨[("X-Forwarded-For".toList, ["2001:db8::1".toList]),
        ("X-Real-Ip".toList, ["198.51.100.7".toList])], "192.0.2.10:54321".toList⟩
      "2001:db8::1".toList [0x20, 0x01, 0x0d, 0xb8, 0, 0, 0, 0, 0, 0, 0, 0, 0, 0, 0, 1]
      (by decide) (by decide)⟩

/-- C5: when the chain parser yields absent and no alternative header parses, `FromRequest`
returns the peer-address fallback: the parse of the host `h` when `splitHostPort` succeeds on
the peer address with host `h` (absent when `h` does not parse), and the parse of the raw peer
address when `splitHostPort` does not succeed. -/
theorem FromRequest_peer_fallback (r : Request)
    (hchain : fromXForwardedFor (r.Header.Get headerXForwardedFor) = none)
    (halt : ∀ n ∈ headerIPs, ParseIP (r.Header.Get n) = none) :
    (∀ h, splitHostPort r.RemoteAddr = (h, true) → FromRequest r = ParseIP h) ∧
    ((splitHostPort r.RemoteAddr).2 = false → FromRequest r = ParseIP r.RemoteAddr) := by
  rw [FromRequest_fallback hchain halt]
  constructor
  · intro h hh
    simp [peerHost, hh]
  · intro hh
    simp [peerHost, hh]

theorem FromRequest_peer_fallback_witness :
    fromXForwardedFor (Header.Get [("X-Forwarded-For".toList, ["unknown, unknown".toList])]
      headerXForwardedFor) = none ∧
    splitHostPort "192.0.2.10:54321".toList = ("192.0.2.10".toList, true) ∧
    FromRequest ⟨[("X-Forwarded-For".toList, ["unknown, unknown".toList])],
      "192.0.2.10:54321".toList⟩ = ParseIP "192.0.2.10".toList ∧
    ParseIP "192.0.2.10".toList = some (IPv4 192 0 2 10) ∧
    FromRequest ⟨[("X-Forwarded-For".toList, ["unknown, unknown".toList]),
      ("X-Real-Ip".toList, ["198.51.100.7".toList])], "192.0.2.10:54321".toList⟩
      = some (IPv4 198 51 100 7) :=
  ⟨by decide, by decide,
    (FromRequest_peer_fallback
      ⟨[("X-Forwarded-For".toList, ["unknown, unknown".toList])], "192.0.2.10:54321".toList⟩
      (by decide) (by decide)).1 "192.0.2.10".toList (by decide),
    by decide, by decide⟩

/-- C7: `splitHostPort addr` returns `ok = true` if and only if `net.SplitHostPort addr`
succeeds with a non-empty host, and then the returned string is that host; in every other case
it returns `ok = false` (with the empty string `net.SplitHostPort` returns on an error, or the
empty host). No colon, a missing `]` and the empty host of `":80"` are such cases. -/
theorem splitHostPort_ok_iff (addr : GoString) :
    ((splitHostPort addr).2 = true ↔
      ∃ host port, SplitHostPort addr = .ok (host, port) ∧ host ≠ []) ∧
    (∀ host port, SplitHostPort addr = .ok (host, port) → host ≠ [] →
      splitHostPort addr = (host, true)) ∧
    ((¬ ∃ host port, SplitHostPort addr = .ok (host, port) ∧ host ≠ []) →
      splitHostPort addr = ([], false)) ∧
    splitHostPort "192.0.2.10".toList = ([], false) ∧
    splitHostPort "[2001:db8::1:443".toList = ([], false) ∧
    splitHostPort "2001:db8::1]:443".toList = ([], false) ∧
    splitHostPort ":80".toList = ([], false) := by
  refine ⟨?_, ?_, ?_, by decide, by decide, by decide, by decide⟩
  · cases h : SplitHostPort addr with
    | error e => simp [splitHostPort, h]
    | ok hp =>
      obtain ⟨host, port⟩ := hp
      simp [splitHostPort, h]
  · intro host port h hne
    simp [splitHostPort, h, hne]
  · intro hno
    cases h : SplitHostPort addr with
    | error e => simp [splitHostPort, h]
    | ok hp =>
      obtain ⟨host, port⟩ := hp
      have : host = [] := by
        by_contra hne
        exact hno ⟨host, port, h, hne⟩
      simp [splitHostPort, h, this]

/-- C8: for every valid IPv4 literal `s` (accepted by `net.ParseIP`, no colon) denoting `a` and
every string `p` of decimal digits, a request in which the nine recognized headers are absent
and whose peer address is `s:p` makes `FromRequest` return `a`. -/
theorem FromRequest_peer_ipv4_port (r : Request) (s p : GoString) (a : IP)
    (hs : ParseIP s = some a) (h4 : ':' ∉ s) (hp : ∀ c ∈ p, c.isDigit = true)
    (hh : ∀ n ∈ headerXForwardedFor :: headerIPs, r.Header.Get n = [])
    (hpeer : r.RemoteAddr = s ++ ':' :: p) :
    FromRequest r = some a := by
  obtain ⟨hchain, halt⟩ := no_headers_chain hh
  rw [FromRequest_fallback hchain halt, hpeer]
  have hsp : SplitHostPort (s ++ ':' :: p) = .ok (s, p) := by
    apply SplitHostPort_host_port
    · intro c hc
      have := addrByte_facts (ParseIP_chars hs c hc)
      exact ⟨fun e => h4 (e ▸ hc), this.2.1, this.2.2.1⟩
    · exact fun c hc => isDigit_facts (hp c hc)
  simp [peerHost, splitHostPort, hsp, ParseIP_ne_nil hs, hs]

theorem FromRequest_peer_ipv4_port_witness :
    FromRequest ⟨[], "192.0.2.10:54321".toList⟩ = some (IPv4 192 0 2 10) :=
  FromRequest_peer_ipv4_port ⟨[], "192.0.2.10:54321".toList⟩ "192.0.2.10".toList
    "54321".toList (IPv4 192 0 2 10) (by decide) (by decide) (by decide) (by decide) (by decide)

/-- C9: for every literal `b` accepted by `net.ParseIP` (which accepts no zone), in particular
every valid IPv6 literal, denoting `a`, and every string `p` of decimal digits, a request in
which the nine recognized headers are absent and whose peer address is `[b]:p` makes
`FromRequest` return `a`. -/
theorem FromRequest_peer_ipv6_port (r : Request) (b p : GoString) (a : IP)
    (hb : ParseIP b = some a) (hp : ∀ c ∈ p, c.isDigit = true)
    (hh : ∀ n ∈ headerXForwardedFor :: headerIPs, r.Header.Get n = [])
    (hpeer : r.RemoteAddr = '[' :: (b ++ ']' :: ':' :: p)) :
    FromRequest r = some a := by
  obtain ⟨hchain, halt⟩ := no_headers_chain hh
  rw [FromRequest_fallback hchain halt, hpeer]
  have hsp : SplitHostPort ('[' :: (b ++ ']' :: ':' :: p)) = .ok (b, p) := by
    apply SplitHostPort_bracket
    · intro c hc
      have := addrByte_facts (ParseIP_chars hb c hc)
      exact ⟨this.2.1, this.2.2.1⟩
    · exact fun c hc => isDigit_facts (hp c hc)
  simp [peerHost, splitHostPort, hsp, ParseIP_ne_nil hb, hb]

theorem FromRequest_peer_ipv6_port_witness :
    FromRequest ⟨[], "[2001:db8::1]:443".toList⟩
      = some [0x20, 0x01, 0x0d, 0xb8, 0, 0, 0, 0, 0, 0, 0, 0, 0, 0, 0, 1] :=
  FromRequest_peer_ipv6_port ⟨[], "[2001:db8::1]:443".toList⟩ "2001:db8::1".toList
    "443".toList [0x20, 0x01, 0x0d, 0xb8, 0, 0, 0, 0, 0, 0, 0, 0, 0, 0, 0, 1]
    (by decide) (by decide) (by decide) (by decide)

/-- C10: for every bare literal `s` that `net.ParseIP` accepts (IPv4, or IPv6 without
brackets) denoting `a`, a request in which the nine recognized headers are absent and whose
peer address is `s` makes `FromRequest` return `a`: `splitHostPort` does not succeed on `s` and
the raw string is parsed. -/
theorem FromRequest_peer_bare_literal (r : Request) (s : GoString) (a : IP)
    (hs : ParseIP s = some a)
    (hh : ∀ n ∈ headerXForwardedFor :: headerIPs, r.Header.Get n = [])
    (hpeer : r.RemoteAddr = s) :
    (splitHostPort s).2 = false ∧ FromRequest r = some a := by
  obtain ⟨hchain, halt⟩ := no_headers_chain hh
  rw [FromRequest_fallback hchain halt, hpeer]
  have hsplit := splitHostPort_of_ParseIP hs
  exact ⟨by rw [hsplit], by simp [peerHost, hsplit, hs]⟩

theorem FromRequest_peer_bare_literal_witness :
    (splitHostPort "192.0.2.10".toList).2 = false ∧
    FromRequest ⟨[], "192.0.2.10".toList⟩ = some (IPv4 192 0 2 10) :=
  FromRequest_peer_bare_literal ⟨[], "192.0.2.10".toList⟩ "192.0.2.10".toList
    (IPv4 192 0 2 10) (by decide) (by decide) (by decide)

/-! ## Further lemmas on the string functions -/

theorem dropWhile_space_append_left {l x : GoString} (hl : ∀ c ∈ l, isSpace c = true) :
    (l ++ x).dropWhile isSpace = x.dropWhile isSpace := by
  induction l with
  | nil => rfl
  | cons y ys ih =>
    have hy := hl y (by simp)
    simp only [List.cons_append, List.dropWhile, hy]
    exact ih (fun c hc => hl c (by simp [hc]))

theorem dropWhile_space_all {l : GoString} (hl : ∀ c ∈ l, isSpace c = true) :
    l.dropWhile isSpace = [] := by
  have := dropWhile_space_append_left (x := []) hl
  simpa using this

theorem dropWhile_space_append_right {t r : GoString} (ht : ∃ c ∈ t, isSpace c = false) :
    (t ++ r).dropWhile isSpace = t.dropWhile isSpace ++ r := by
  induction t with
  | nil =>
    obtain ⟨c, hc, -⟩ := ht
    cases hc
  | cons y ys ih =>
    cases hy : isSpace y with
    | false => simp [List.dropWhile, hy]
    | true =>
      simp only [List.cons_append, List.dropWhile, hy]
      apply ih
      obtain ⟨c, hc, hcs⟩ := ht
      rcases List.mem_cons.mp hc with rfl | hc
      · rw [hy] at hcs
        cases hcs
      · exact ⟨c, hc, hcs⟩

theorem dropWhile_space_sub (t : GoString) : ∀ c ∈ t.dropWhile isSpace, c ∈ t := by
  intro c hc
  exact (List.dropWhile_sublist isSpace).subset hc

theorem dropWhile_space_exists {t : GoString} (ht : ∃ c ∈ t, isSpace c = false) :
    ∃ c ∈ t.dropWhile isSpace, isSpace c = false := by
  induction t with
  | nil =>
    obtain ⟨c, hc, -⟩ := ht
    cases hc
  | cons y ys ih =>
    cases hy : isSpace y with
    | false => exact ⟨y, by simp [List.dropWhile, hy], hy⟩
    | true =>
      simp only [List.dropWhile, hy]
      apply ih
      obtain ⟨c, hc, hcs⟩ := ht
      rcases List.mem_cons.mp hc with rfl | hc
      · rw [hy] at hcs
        cases hcs
      · exact ⟨c, hc, hcs⟩

/-- White space added before and after a string does not change what `TrimSpace` returns. -/
theorem TrimSpace_pad {l t r : GoString} (hl : ∀ c ∈ l, isSpace c = true)
    (hr : ∀ c ∈ r, isSpace c = true) : TrimSpace (l ++ (t ++ r)) = TrimSpace t := by
  unfold TrimSpace
  rw [dropWhile_space_append_left hl]
  by_cases ht : ∃ c ∈ t, isSpace c = false
  · rw [dropWhile_space_append_right ht, List.reverse_append,
      dropWhile_space_append_left (fun c hc => hr c (List.mem_reverse.mp hc))]
  · have hall : ∀ c ∈ t, isSpace c = true := by
      intro c hc
      by_contra hcs
      exact ht ⟨c, hc, by simpa using hcs⟩
    have h1 : (t ++ r).dropWhile isSpace = [] :=
      dropWhile_space_all (fun c hc => by
        rcases List.mem_append.mp hc with h | h
        · exact hall c h
        · exact hr c h)
    rw [h1, dropWhile_space_all hall]

theorem Split_append (s1 s2 : GoString) (sep : Char) :
    Split (s1 ++ sep :: s2) sep = Split s1 sep ++ Split s2 sep := by
  induction s1 with
  | nil => simp [Split]
  | cons x xs ih =>
    by_cases hx : x = sep
    · simp [Split, hx, ih]
    · cases hs : Split xs sep with
      | nil => exact absurd hs (Split_ne_nil xs sep)
      | cons t ts =>
        rw [hs] at ih
        simp [Split, hx, ih, hs]

theorem intercalate_cons_cons (sep : Char) (t u : GoString) (us : List GoString) :
    List.intercalate [sep] (t :: u :: us) = t ++ sep :: List.intercalate [sep] (u :: us) := by
  simp [List.intercalate, List.intersperse]

theorem Split_intercalate_of_no_sep {toks : List GoString} {sep : Char} (hne : toks ≠ [])
    (h : ∀ t ∈ toks, sep ∉ t) : Split (List.intercalate [sep] toks) sep = toks := by
  induction toks with
  | nil => exact absurd rfl hne
  | cons t ts ih =>
    cases ts with
    | nil =>
      have : List.intercalate [sep] [t] = t := by simp [List.intercalate, List.intersperse]
      rw [this, Split_of_no_sep (h t (by simp))]
    | cons u us =>
      rw [intercalate_cons_cons, Split_append, Split_of_no_sep (h t (by simp)),
        ih (by simp) (fun v hv => h v (by simp [hv]))]
      rfl

theorem fromXForwardedForLoop_append (xs ys : List GoString) :
    fromXForwardedForLoop (xs ++ ys) =
      match fromXForwardedForLoop xs with
      | some a => some a
      | none => fromXForwardedForLoop ys := by
  induction xs with
  | nil => simp [fromXForwardedForLoop]
  | cons x xs ih =>
    simp only [List.cons_append, fromXForwardedForLoop]
    split
    · rfl
    · exact ih

theorem fromXForwardedForLoop_congr {xs ys : List GoString}
    (h : xs.map TrimSpace = ys.map TrimSpace) :
    fromXForwardedForLoop xs = fromXForwardedForLoop ys := by
  induction xs generalizing ys with
  | nil =>
    cases ys with
    | nil => rfl
    | cons y ys => simp at h
  | cons x xs ih =>
    cases ys with
    | nil => simp at h
    | cons y ys =>
      simp only [List.map_cons, List.cons.injEq] at h
      simp only [fromXForwardedForLoop, h.1, ih h.2]

theorem fromXForwardedFor_single {s : GoString} (hcomma : ',' ∉ s)
    (hspace : ∀ c ∈ s, isSpace c = false) :
    fromXForwardedFor s = ParseIP (if (splitHostPort s).2 then (splitHostPort s).1 else s) := by
  simp only [fromXForwardedFor, Split_of_no_sep hcomma, fromXForwardedForLoop,
    TrimSpace_of_no_space hspace]
  split <;> simp_all

theorem isDigit_plain {c : Char} (h : c.isDigit = true) : c ≠ ',' ∧ isSpace c = false := by
  have h1 : 48 ≤ c.toNat ∧ c.toNat ≤ 57 := by
    simp only [Char.isDigit, Bool.and_eq_true, decide_eq_true_eq] at h
    exact h
  refine ⟨?_, ?_⟩
  · rintro rfl
    revert h
    decide
  · simp only [isSpace, Bool.or_eq_false_iff, Bool.and_eq_false_iff, decide_eq_false_iff_not]
    omega

/-! ## Further lemmas on `net.ParseIP` and `net.SplitHostPort` -/

theorem ParseIP_none_of_byte {s : GoString} {c : Char} (hc : c ∈ s) (hb : addrByte c = false) :
    ParseIP s = none := by
  cases h : ParseIP s with
  | none => rfl
  | some a =>
    have := ParseIP_chars h c hc
    rw [hb] at this
    cases this

theorem ParseAddrLoop_append {s cs tl : GoString} {a : Addr} (hno : ':' ∉ cs)
    (h : ParseAddrLoop s cs = some a) (x : GoString) :
    ParseAddrLoop x (cs ++ tl) = parseIPv4 x := by
  induction cs with
  | nil => simp [ParseAddrLoop] at h
  | cons y ys ih =>
    have hy : y ≠ ':' := fun e => hno (by simp [e])
    unfold ParseAddrLoop at h
    simp only [List.cons_append]
    unfold ParseAddrLoop
    by_cases h1 : y = '.'
    · simp [h1]
    · simp only [h1, hy, if_false] at h ⊢
      split_ifs at h ⊢ with h3
      exact ih (fun e => hno (by simp [e])) h

theorem parseIPv4_none_of_colon {s : GoString} (h : ':' ∈ s) : parseIPv4 s = none := by
  cases hp : parseIPv4 s with
  | none => rfl
  | some a => exact absurd rfl (parseIPv4_chars hp _ h).2

/-- A port appended to an IPv4 literal makes a string that `net.ParseIP` rejects. -/
theorem ParseIP_ipv4_port {s p : GoString} {a : IP} (hs : ParseIP s = some a)
    (h4 : ':' ∉ s) : ParseIP (s ++ ':' :: p) = none := by
  unfold ParseIP at hs
  split at hs
  · cases hs
  · next ad hp =>
    have h1 : ParseAddr (s ++ ':' :: p) = parseIPv4 (s ++ ':' :: p) :=
      ParseAddrLoop_append h4 hp (s ++ ':' :: p)
    simp [ParseIP, h1, parseIPv4_none_of_colon (s := s ++ ':' :: p) (by simp)]

theorem SplitHostPort_bracket_no_port {b : GoString} (hb : ']' ∉ b) :
    SplitHostPort ('[' :: (b ++ [']'])) = .error .missingPort := by
  cases hl : LastIndexByteString ('[' :: (b ++ [']'])) ':' with
  | none => simp [SplitHostPort, hl]
  | some i =>
    have hbc : ']' ∉ '[' :: b := by
      simp only [List.mem_cons]
      rintro (h | h)
      · cases h
      · exact hb h
    have he : IndexByteString ('[' :: (b ++ [']'])) ']' = some (b.length + 1) := by
      have := IndexByteString_append (s := '[' :: b) (p := []) (c := ']') hbc
      simpa using this
    simp [SplitHostPort, hl, he]

/-! ## Further lemmas on `clientip.go` -/

theorem fromHeaderIPs_congr {h1 h2 : Header} {names : List GoString}
    (h : ∀ n ∈ names, h1.Get n = h2.Get n) :
    fromHeaderIPs h1 names = fromHeaderIPs h2 names := by
  induction names with
  | nil => rfl
  | cons x xs ih =>
    simp only [fromHeaderIPs, h x (by simp), ih (fun n hn => h n (by simp [hn]))]

theorem fromHeaderIPs_skip {h : Header} {pre post : List GoString} {name : GoString}
    (hname : ParseIP (h.Get name) = none) :
    fromHeaderIPs h (pre ++ name :: post) = fromHeaderIPs h (pre ++ post) := by
  induction pre with
  | nil => simp [fromHeaderIPs, hname]
  | cons x xs ih =>
    cases hx : ParseIP (h.Get x) with
    | some b => simp [fromHeaderIPs, hx]
    | none => simp [fromHeaderIPs, hx, ih]

theorem fromXForwardedFor_literal {s : GoString} {a : IP} (hs : ParseIP s = some a) :
    fromXForwardedFor s = some a := by
  have hchars := ParseIP_chars hs
  rw [fromXForwardedFor_single (fun hc => (addrByte_facts (hchars _ hc)).1 rfl)
    (fun c hc => (addrByte_facts (hchars c hc)).2.2.2.2)]
  simp [splitHostPort_of_ParseIP hs, hs]

/-! ## The claims, continued -/

/-- C11: a port on a chain token is tolerated. For every valid IPv4 literal `s` (accepted by
`net.ParseIP`, no colon) denoting `a` and every string `p` of decimal digits,
`fromXForwardedFor` of `s:p` is `a`; for every literal `b` accepted by `net.ParseIP` (in
particular every valid IPv6 literal) denoting `a6`, `fromXForwardedFor` of `[b]:p` is `a6`. -/
theorem fromXForwardedFor_port_tolerated (s b p : GoString) (a a6 : IP)
    (hs : ParseIP s = some a) (h4 : ':' ∉ s) (hb : ParseIP b = some a6)
    (hp : ∀ c ∈ p, c.isDigit = true) :
    fromXForwardedFor (s ++ ':' :: p) = some a ∧
    fromXForwardedFor ('[' :: (b ++ ']' :: ':' :: p)) = some a6 := by
  have hsc := fun c hc => addrByte_facts (ParseIP_chars hs c hc)
  have hbc := fun c hc => addrByte_facts (ParseIP_chars hb c hc)
  constructor
  · have hsp : SplitHostPort (s ++ ':' :: p) = .ok (s, p) :=
      SplitHostPort_host_port
        (fun c hc => ⟨fun e => h4 (e ▸ hc), (hsc c hc).2.1, (hsc c hc).2.2.1⟩)
        (fun c hc => isDigit_facts (hp c hc))
    have hcomma : ',' ∉ s ++ ':' :: p := by
      simp only [List.mem_append, List.mem_cons]
      rintro (h | h | h)
      · exact (hsc _ h).1 rfl
      · cases h
      · exact (isDigit_plain (hp _ h)).1 rfl
    have hspace : ∀ c ∈ s ++ ':' :: p, isSpace c = false := by
      intro c hc
      simp only [List.mem_append, List.mem_cons] at hc
      rcases hc with h | rfl | h
      · exact (hsc c h).2.2.2.2
      · decide
      · exact (isDigit_plain (hp c h)).2
    rw [fromXForwardedFor_single hcomma hspace]
    simp [splitHostPort, hsp, ParseIP_ne_nil hs, hs]
  · have hsp : SplitHostPort ('[' :: (b ++ ']' :: ':' :: p)) = .ok (b, p) :=
      SplitHostPort_bracket (fun c hc => ⟨(hbc c hc).2.1, (hbc c hc).2.2.1⟩)
        (fun c hc => isDigit_facts (hp c hc))
    have hcomma : ',' ∉ '[' :: (b ++ ']' :: ':' :: p) := by
      simp only [List.mem_append, List.mem_cons]
      rintro (h | h | h | h | h)
      · cases h
      · exact (hbc _ h).1 rfl
      · cases h
      · cases h
      · exact (isDigit_plain (hp _ h)).1 rfl
    have hspace : ∀ c ∈ '[' :: (b ++ ']' :: ':' :: p), isSpace c = false := by
      intro c hc
      simp only [List.mem_append, List.mem_cons] at hc
      rcases hc with rfl | h | rfl | rfl | h
      · decide
      · exact (hbc c h).2.2.2.2
      · decide
      · decide
      · exact (isDigit_plain (hp c h)).2
    rw [fromXForwardedFor_single hcomma hspace]
    simp [splitHostPort, hsp, ParseIP_ne_nil hb, hb]

theorem fromXForwardedFor_port_tolerated_witness :
    fromXForwardedFor "198.51.100.7:4532".toList = some (IPv4 198 51 100 7) ∧
    fromXForwardedFor "[2001:db8::1]:4532".toList
      = some [0x20, 0x01, 0x0d, 0xb8, 0, 0, 0, 0, 0, 0, 0, 0, 0, 0, 0, 1] :=
  fromXForwardedFor_port_tolerated "198.51.100.7".toList "2001:db8::1".toList "4532".toList
    (IPv4 198 51 100 7) [0x20, 0x01, 0x0d, 0xb8, 0, 0, 0, 0, 0, 0, 0, 0, 0, 0, 0, 1]
    (by decide) (by decide) (by decide) (by decide)

/-- C12: white space around chain tokens is insignificant. For every list of comma-free
tokens `t`, each with white space `l` before and `r` after it (any characters of
`unicode.IsSpace`, in particular spaces and tabs), `fromXForwardedFor` of the padded tokens
`l ++ t ++ r` joined by `,` equals `fromXForwardedFor` of the tokens `t` joined by `,`. -/
theorem fromXForwardedFor_padding (toks : List (GoString × GoString × GoString))
    (htok : ∀ x ∈ toks, ',' ∉ x.2.1)
    (hpad : ∀ x ∈ toks, (∀ c ∈ x.1, isSpace c = true) ∧ (∀ c ∈ x.2.2, isSpace c = true)) :
    fromXForwardedFor (List.intercalate [','] (toks.map (fun x => x.1 ++ (x.2.1 ++ x.2.2)))) =
      fromXForwardedFor (List.intercalate [','] (toks.map (fun x => x.2.1))) := by
  cases hnil : toks with
  | nil => rfl
  | cons y ys =>
    rw [← hnil]
    have hne : toks ≠ [] := by simp [hnil]
    have hspace_comma : ∀ c, isSpace c = true → c ≠ ',' := by
      rintro c hc rfl
      revert hc
      decide
    have h1 : ∀ t ∈ toks.map (fun x => x.1 ++ (x.2.1 ++ x.2.2)), ',' ∉ t := by
      intro t ht
      obtain ⟨x, hx, rfl⟩ := List.mem_map.mp ht
      simp only [List.mem_append]
      rintro (h | h | h)
      · exact hspace_comma _ ((hpad x hx).1 _ h) rfl
      · exact htok x hx h
      · exact hspace_comma _ ((hpad x hx).2 _ h) rfl
    have h2 : ∀ t ∈ toks.map (fun x => x.2.1), ',' ∉ t := by
      intro t ht
      obtain ⟨x, hx, rfl⟩ := List.mem_map.mp ht
      exact htok x hx
    unfold fromXForwardedFor
    rw [Split_intercalate_of_no_sep (by simpa using hne) h1,
      Split_intercalate_of_no_sep (by simpa using hne) h2]
    apply fromXForwardedForLoop_congr
    simp only [List.map_map]
    apply List.map_congr_left
    intro x hx
    exact TrimSpace_pad (hpad x hx).1 (hpad x hx).2

theorem fromXForwardedFor_padding_witness :
    fromXForwardedFor " 203.0.113.5 , 10.0.0.1".toList
      = fromXForwardedFor "203.0.113.5,10.0.0.1".toList ∧
    fromXForwardedFor " 203.0.113.5 , 10.0.0.1".toList = some (IPv4 203 0 113 5) :=
  ⟨fromXForwardedFor_padding
    [(" ".toList, "203.0.113.5".toList, " ".toList), (" ".toList, "10.0.0.1".toList, [])]
    (by decide) (by decide), by decide⟩

/-- C13: alternative headers are parsed directly, with no comma-splitting and no port
stripping. For every valid IPv4 literal `s` (accepted by `net.ParseIP`, no colon) and all
strings `p` and `b` (in particular a decimal port and a second literal), the values `s:p` and
`s, b` do not parse; an alternative header with such a value is skipped by the loop over
`headerIPs`; and a request whose only recognized header is that one gets the peer-address
fallback. With `x-real-ip` set to `"192.0.2.1:80"` and an empty peer address the result is
absent. -/
theorem alternative_header_parsed_directly (s b p : GoString) (a : IP)
    (hs : ParseIP s = some a) (h4 : ':' ∉ s) :
    ParseIP (s ++ ':' :: p) = none ∧
    ParseIP (s ++ ',' :: ' ' :: b) = none ∧
    (∀ (h : Header) (pre post : List GoString) (name : GoString),
      headerIPs = pre ++ name :: post →
      (h.Get name = s ++ ':' :: p ∨ h.Get name = s ++ ',' :: ' ' :: b) →
      fromHeaderIPs h headerIPs = fromHeaderIPs h (pre ++ post)) ∧
    (∀ (r : Request) (name : GoString), name ∈ headerIPs →
      (r.Header.Get name = s ++ ':' :: p ∨ r.Header.Get name = s ++ ',' :: ' ' :: b) →
      r.Header.Get headerXForwardedFor = [] →
      (∀ n ∈ headerIPs, n ≠ name → r.Header.Get n = []) →
      FromRequest r = ParseIP (peerHost r.RemoteAddr)) ∧
    FromRequest ⟨[("X-Real-Ip".toList, ["192.0.2.1:80".toList])], []⟩ = none := by
  have hport : ParseIP (s ++ ':' :: p) = none := ParseIP_ipv4_port hs h4
  have hcomma : ParseIP (s ++ ',' :: ' ' :: b) = none :=
    ParseIP_none_of_byte (c := ',') (by simp) (by decide)
  have hval : ∀ v : GoString, (v = s ++ ':' :: p ∨ v = s ++ ',' :: ' ' :: b) →
      ParseIP v = none := by
    rintro v (rfl | rfl)
    · exact hport
    · exact hcomma
  refine ⟨hport, hcomma, ?_, ?_, by decide⟩
  · intro h pre post name horder hv
    rw [horder]
    exact fromHeaderIPs_skip (hval _ hv)
  · intro r name _ hv hx hrest
    apply FromRequest_fallback
    · rw [hx]
      decide
    · intro n hn
      by_cases hnn : n = name
      · rw [hnn]
        exact hval _ hv
      · rw [hrest n hn hnn]
        exact ParseIP_nil

theorem alternative_header_parsed_directly_witness :
    ParseIP "192.0.2.1:80".toList = none ∧
    ParseIP ("192.0.2.1".toList ++ ',' :: ' ' :: "10.0.0.1".toList) = none :=
  ⟨(alternative_header_parsed_directly "192.0.2.1".toList "10.0.0.1".toList "80".toList
      (IPv4 192 0 2 1) (by decide) (by decide)).1,
    (alternative_header_parsed_directly "192.0.2.1".toList "10.0.0.1".toList "80".toList
      (IPv4 192 0 2 1) (by decide) (by decide)).2.1⟩

/-- C14: the absent result is not confused with the all-zeros address. A request whose
`x-forwarded-for` value is `"0.0.0.0"` makes `FromRequest` return the present address 0.0.0.0,
which differs from the absent result of a request with no headers and an empty peer
address. -/
theorem FromRequest_zero_address_present (r : Request)
    (hx : r.Header.Get headerXForwardedFor = "0.0.0.0".toList) :
    FromRequest r = some (IPv4 0 0 0 0) ∧
    FromRequest ⟨[], []⟩ = none ∧
    FromRequest r ≠ FromRequest ⟨[], []⟩ := by
  have hchain : fromXForwardedFor (r.Header.Get headerXForwardedFor) = some (IPv4 0 0 0 0) := by
    rw [hx]
    decide
  simp only [headerXForwardedFor] at hchain
  have h1 : FromRequest r = some (IPv4 0 0 0 0) := by
    simp only [FromRequest, hchain]
  have h2 : FromRequest ⟨[], []⟩ = none := by decide
  refine ⟨h1, h2, ?_⟩
  rw [h1, h2]
  exact fun h => Option.noConfusion h

theorem FromRequest_zero_address_present_witness :
    FromRequest ⟨[("X-Forwarded-For".toList, ["0.0.0.0".toList])], []⟩
      = some [0, 0, 0, 0, 0, 0, 0, 0, 0, 0, 0xff, 0xff, 0, 0, 0, 0] ∧
    FromRequest ⟨[("X-Forwarded-For".toList, ["0.0.0.0".toList])], []⟩
      ≠ FromRequest ⟨[], []⟩ :=
  ⟨(FromRequest_zero_address_present
      ⟨[("X-Forwarded-For".toList, ["0.0.0.0".toList])], []⟩ (by decide)).1,
    (FromRequest_zero_address_present
      ⟨[("X-Forwarded-For".toList, ["0.0.0.0".toList])], []⟩ (by decide)).2.2⟩

/-- C15: `FromRequest` depends only on the values of the nine recognized headers and on the
peer address: two header sets that agree on `x-forwarded-for` and on the eight names of
`headerIPs` give the same result for every peer address. -/
theorem FromRequest_depends_on_nine_headers (h1 h2 : Header) (peer : GoString)
    (hagree : ∀ n ∈ headerXForwardedFor :: headerIPs, h1.Get n = h2.Get n) :
    FromRequest ⟨h1, peer⟩ = FromRequest ⟨h2, peer⟩ := by
  have hx := hagree headerXForwardedFor (by simp)
  simp only [headerXForwardedFor] at hx
  have halt : fromHeaderIPs h1 headerIPs = fromHeaderIPs h2 headerIPs :=
    fromHeaderIPs_congr (fun n hn => hagree n (by simp [hn]))
  simp only [FromRequest, hx, halt]

theorem FromRequest_depends_on_nine_headers_witness :
    FromRequest ⟨[("X-Real-Ip".toList, ["198.51.100.7".toList])], "192.0.2.10:54321".toList⟩ =
    FromRequest ⟨[("User-Agent".toList, ["curl/8.0".toList]),
        ("Forwarded".toList, ["for=10.0.0.1".toList]),
        ("X-Real-Ip".toList, ["198.51.100.7".toList, "10.0.0.2".toList]),
        ("X-Original-Forwarded-For".toList, ["10.0.0.3".toList])],
      "192.0.2.10:54321".toList⟩ :=
  FromRequest_depends_on_nine_headers [("X-Real-Ip".toList, ["198.51.100.7".toList])]
    [("User-Agent".toList, ["curl/8.0".toList]),
      ("Forwarded".toList, ["for=10.0.0.1".toList]),
      ("X-Real-Ip".toList, ["198.51.100.7".toList, "10.0.0.2".toList]),
      ("X-Original-Forwarded-For".toList, ["10.0.0.3".toList])]
    "192.0.2.10:54321".toList (by decide)

/-- C16: chain parsing distributes over comma concatenation: `fromXForwardedFor` of
`s1 + "," + s2` is `fromXForwardedFor s1` when that is present and `fromXForwardedFor s2`
otherwise; so what stands to the right of a valid token does not change the result. -/
theorem fromXForwardedFor_comma_concat (s1 s2 : GoString) :
    (∀ a, fromXForwardedFor s1 = some a → fromXForwardedFor (s1 ++ ',' :: s2) = some a) ∧
    (fromXForwardedFor s1 = none →
      fromXForwardedFor (s1 ++ ',' :: s2) = fromXForwardedFor s2) := by
  have h : fromXForwardedFor (s1 ++ ',' :: s2) =
      match fromXForwardedFor s1 with
      | some a => some a
      | none => fromXForwardedFor s2 := by
    unfold fromXForwardedFor
    rw [Split_append, fromXForwardedForLoop_append]
  constructor
  · intro a ha
    rw [h, ha]
  · intro hn
    rw [h, hn]

/-- C17: a port appended to an unbracketed IPv6 chain token is not stripped. For the chain
value `"2001:db8::1:8080"` `net.SplitHostPort` fails with too many colons, the whole token is
parsed, and `fromXForwardedFor` returns 2001:db8:0:0:0:0:1:8080, which is not the address
2001:db8::1. -/
theorem fromXForwardedFor_unbracketed_ipv6_port :
    SplitHostPort "2001:db8::1:8080".toList = .error .tooManyColons ∧
    splitHostPort "2001:db8::1:8080".toList = ([], false) ∧
    ParseIP "2001:db8::1:8080".toList
      = some [0x20, 0x01, 0x0d, 0xb8, 0, 0, 0, 0, 0, 0, 0, 0, 0, 0x01, 0x80, 0x80] ∧
    ParseIP "2001:db8:0:0:0:0:1:8080".toList = ParseIP "2001:db8::1:8080".toList ∧
    fromXForwardedFor "2001:db8::1:8080".toList
      = some [0x20, 0x01, 0x0d, 0xb8, 0, 0, 0, 0, 0, 0, 0, 0, 0, 0x01, 0x80, 0x80] ∧
    fromXForwardedFor "2001:db8::1:8080".toList ≠ ParseIP "2001:db8::1".toList := by
  refine ⟨rfl, by decide, by decide, by decide, by decide, by decide⟩

/-- C18: a bracketed literal without a port is not recognized. For every literal `b` accepted
by `net.ParseIP` (in particular every valid IPv6 literal), `net.SplitHostPort` fails on `[b]`
with a missing port, so `splitHostPort` returns `ok = false`; `[b]` does not parse;
`fromXForwardedFor` of `[b]` is absent; and `FromRequest` of a request in which the nine
recognized headers are absent and whose peer address is `[b]` is absent. -/
theorem bracketed_literal_without_port (r : Request) (b : GoString) (a : IP)
    (hb : ParseIP b = some a)
    (hh : ∀ n ∈ headerXForwardedFor :: headerIPs, r.Header.Get n = [])
    (hpeer : r.RemoteAddr = '[' :: (b ++ [']'])) :
    SplitHostPort ('[' :: (b ++ [']'])) = .error .missingPort ∧
    (splitHostPort ('[' :: (b ++ [']']))).2 = false ∧
    ParseIP ('[' :: (b ++ [']'])) = none ∧
    fromXForwardedFor ('[' :: (b ++ [']'])) = none ∧
    FromRequest r = none := by
  have hbc := fun c hc => addrByte_facts (ParseIP_chars hb c hc)
  have hsp : SplitHostPort ('[' :: (b ++ [']'])) = .error .missingPort :=
    SplitHostPort_bracket_no_port (fun h => (hbc _ h).2.2.1 rfl)
  have hsplit : splitHostPort ('[' :: (b ++ [']'])) = ([], false) := by
    simp [splitHostPort, hsp]
  have hparse : ParseIP ('[' :: (b ++ [']'])) = none :=
    ParseIP_none_of_byte (c := '[') (by simp) (by decide)
  have hcomma : ',' ∉ '[' :: (b ++ [']']) := by
    simp only [List.mem_append, List.mem_cons, List.mem_nil_iff, or_false]
    rintro (h | h | h)
    · cases h
    · exact (hbc _ h).1 rfl
    · cases h
  have hspace : ∀ c ∈ '[' :: (b ++ [']']), isSpace c = false := by
    intro c hc
    simp only [List.mem_append, List.mem_cons, List.mem_nil_iff, or_false] at hc
    rcases hc with rfl | h | rfl
    · decide
    · exact (hbc c h).2.2.2.2
    · decide
  refine ⟨hsp, by rw [hsplit], hparse, ?_, ?_⟩
  · rw [fromXForwardedFor_single hcomma hspace]
    simp [hsplit, hparse]
  · obtain ⟨hchain, halt⟩ := no_headers_chain hh
    rw [FromRequest_fallback hchain halt, hpeer]
    simp [peerHost, hsplit, hparse]

theorem bracketed_literal_without_port_witness :
    SplitHostPort "[2001:db8::1]".toList = .error .missingPort ∧
    (splitHostPort "[2001:db8::1]".toList).2 = false ∧
    ParseIP "[2001:db8::1]".toList = none ∧
    fromXForwardedFor "[2001:db8::1]".toList = none ∧
    FromRequest ⟨[], "[2001:db8::1]".toList⟩ = none :=
  bracketed_literal_without_port ⟨[], "[2001:db8::1]".toList⟩ "2001:db8::1".toList
    [0x20, 0x01, 0x0d, 0xb8, 0, 0, 0, 0, 0, 0, 0, 0, 0, 0, 0, 1] (by decide) (by decide)
    (by decide)

/-! ## The code does not panic -/

theorem indexAt_of_drop {α : Type} {s : List α} {n : Nat} {x : α} {xs : List α}
    (h : s.drop n = x :: xs) : indexAt s (n : Int) = .ok x := by
  have hx : s[n]? = some x := by
    have := List.getElem?_drop (L := s) (i := n) (j := 0)
    rw [h] at this
    simpa using this.symm
  have hn : ¬ ((n : Int) < 0) := by omega
  simp [indexAt, hx, hn]

theorem sliceOf_nat {α : Type} (s : List α) {lo hi : Nat} (h1 : lo ≤ hi) (h2 : hi ≤ s.length) :
    sliceOf s (lo : Int) (hi : Int) = .ok ((s.take hi).drop lo) := by
  have : (0 : Int) ≤ lo ∧ (lo : Int) ≤ hi ∧ (hi : Int) ≤ s.length := by omega
  simp [sliceOf, this]

theorem sliceOf_from {α : Type} (s : List α) {lo : Nat} (h : lo ≤ s.length) :
    sliceOf s (lo : Int) (s.length : Int) = .ok (s.drop lo) := by
  rw [sliceOf_nat s h (le_refl _), List.take_length]

theorem IndexByteString_lt {s : GoString} {c : Char} {i : Nat}
    (h : IndexByteString s c = some i) : i < s.length := by
  induction s generalizing i with
  | nil => simp [IndexByteString] at h
  | cons x xs ih =>
    by_cases hx : x = c
    · simp [IndexByteString, hx] at h
      subst h
      simp
    · simp only [IndexByteString, hx, if_false, Option.map_eq_some'] at h
      obtain ⟨j, hj, rfl⟩ := h
      have := ih hj
      simp
      omega

theorem LastIndexByteString_lt {s : GoString} {c : Char} {i : Nat}
    (h : LastIndexByteString s c = some i) : i < s.length := by
  have := (LastIndexByteString_some h).1
  by_contra hlt
  have h1 : s.take i = s := List.take_of_length_le (by omega)
  have h2 : (s.take i ++ c :: s.drop (i + 1)).length = s.length := by rw [← this]
  rw [h1] at h2
  simp at h2

theorem Checked.splitHostPortTail_eq (hostport host : GoString) {i j k : Nat}
    (hi : i < hostport.length) (hj : j ≤ hostport.length) (hk : k ≤ hostport.length) :
    Checked.splitHostPortTail hostport host i j k
      = .ok (ClientIP.splitHostPortTail hostport host i j k) := by
  have h1 := sliceOf_from hostport hj
  have h2 := sliceOf_from hostport hk
  have h3 := sliceOf_from hostport (show i + 1 ≤ hostport.length by omega)
  simp only [Checked.splitHostPortTail, ClientIP.splitHostPortTail, h1, h2, Except.bind]
  cases hsj : IndexByteString (List.drop j hostport) '[' with
  | some a => simp [indexInt]
  | none =>
    cases hsk : IndexByteString (List.drop k hostport) ']' with
    | some a => simp [indexInt]
    | none =>
      have h3' : sliceOf hostport ((i : Int) + 1) (hostport.length : Int)
          = .ok (hostport.drop (i + 1)) := by
        have := h3
        push_cast at this
        exact this
      simp [indexInt, h3']
theorem indexAt_nat {α : Type} {s : List α} {n : Nat} (h : n < s.length) :
    indexAt s (n : Int) = .ok (s.get ⟨n, h⟩) := by
  have hn : ¬ ((n : Int) < 0) := by omega
  simp [indexAt, hn, List.getElem?_eq_getElem h]

theorem Checked.SplitHostPort_eq (hostport : GoString) :
    Checked.SplitHostPort hostport = .ok (ClientIP.SplitHostPort hostport) := by
  unfold Checked.SplitHostPort ClientIP.SplitHostPort
  cases hl : LastIndexByteString hostport ':' with
  | none => simp [indexInt]
  | some i =>
    have hi := LastIndexByteString_lt hl
    cases hostport with
    | nil => simp at hi
    | cons c0 rest =>
      have h0 : indexAt (c0 :: rest) 0 = .ok c0 := indexAt_of_drop (n := 0) rfl
      have hneg : ¬ ((i : Int) < 0) := by omega
      simp only [indexInt, hneg, if_false, h0, Except.bind, List.head?_cons, Option.some.injEq]
      by_cases hc : c0 = '['
      · simp only [hc, if_true]
        cases he : IndexByteString ('[' :: rest) ']' with
        | none => simp
        | some e =>
          have hel := IndexByteString_lt he
          have hneg2 : ¬ ((e : Int) < 0) := by omega
          simp only [hneg2, if_false]
          by_cases h1 : e + 1 = ('[' :: rest).length
          · have h1' : (e : Int) + 1 = (('[' :: rest).length : Int) := by omega
            simp [h1, h1']
          · have h1' : ¬ ((e : Int) + 1 = (('[' :: rest).length : Int)) := by omega
            simp only [h1, h1', if_false]
            by_cases h2 : e + 1 = i
            · have h2' : (e : Int) + 1 = (i : Int) := by omega
              have he1 : 1 ≤ e := by
                cases e with
                | zero => simp [IndexByteString] at he
                | succ n => omega
              have hs := sliceOf_nat ('[' :: rest) he1 (le_of_lt hel)
              simp only [Nat.cast_one] at hs
              simp only [h2, h2', if_true, hs, Except.bind]
              have := Checked.splitHostPortTail_eq ('[' :: rest)
                (List.drop 1 (List.take e ('[' :: rest))) (i := i) (j := 1) (k := e + 1)
                hi (by simp) (by omega)
              simp only [Nat.cast_one, Nat.cast_add] at this
              rw [← h2] at this ⊢
              simpa using this
            · have h2' : ¬ ((e : Int) + 1 = (i : Int)) := by omega
              have hlt : e + 1 < ('[' :: rest).length := by omega
              have hidx := indexAt_nat hlt
              simp only [Nat.cast_add, Nat.cast_one] at hidx
              simp only [h2, h2', if_false, hidx, Except.bind]
              have hget : ('[' :: rest).get? (e + 1) = some (('[' :: rest).get ⟨e + 1, hlt⟩) :=
                List.get?_eq_get hlt
              rw [hget]
              simp only [Option.some.injEq]
              split_ifs <;> rfl
      · simp only [hc, if_false]
        have hs := sliceOf_nat (c0 :: rest) (Nat.zero_le i) (le_of_lt hi)
        simp only [Nat.cast_zero, List.drop_zero] at hs
        simp only [hs, Except.bind]
        cases hcol : IndexByteString (List.take i (c0 :: rest)) ':' with
        | some a =>
          have : ¬ ((a : Int) < 0) := by omega
          simp [this]
        | none =>
          have := Checked.splitHostPortTail_eq (c0 :: rest) (List.take i (c0 :: rest))
            (i := i) (j := 0) (k := 0) hi (by simp) (by simp)
          simp only [Nat.cast_zero] at this
          simpa using this
theorem assignAt_nat {α : Type} {s : List α} {n : Nat} (v : α) (h : n < s.length) :
    assignAt s (n : Int) v = .ok (s.set n v) := by
  have : (0 : Int) ≤ n ∧ (n : Int) < s.length := by omega
  simp [assignAt, this]

theorem Checked.parseIPv4FieldsLoop_eq (s : GoString) (n : Nat) :
    ∀ (val pos digLen : Nat) (fields : List Nat) (prev : Option Char),
      n ≤ s.length → fields.length = 4 → pos ≤ 3 →
      (s.length - n ≠ 0 → prev = s[s.length - n - 1]?) →
      Checked.parseIPv4FieldsLoop s n val pos digLen fields =
        .ok (ClientIP.parseIPv4FieldsLoop (s.drop (s.length - n)) (s.length - n) prev
          val pos digLen fields) := by
  induction n with
  | zero =>
    intro val pos digLen fields prev _ _ _ _
    simp [Checked.parseIPv4FieldsLoop, ClientIP.parseIPv4FieldsLoop]
  | succ n ih =>
    intro val pos digLen fields prev hn hf hpos hprev
    have hi : s.length - (n + 1) < s.length := by omega
    have hdrop : s.drop (s.length - (n + 1))
        = s[s.length - (n + 1)] :: s.drop (s.length - n) := by
      rw [List.drop_eq_getElem_cons hi]
      congr 2
      omega
    have hidx : indexAt s ((s.length - (n + 1) : Nat) : Int) = .ok s[s.length - (n + 1)] :=
      indexAt_of_drop hdrop
    have hnext : s.length - n ≠ 0 → some s[s.length - (n + 1)] = s[s.length - n - 1]? := by
      intro _
      have : s.length - n - 1 = s.length - (n + 1) := by omega
      rw [this, List.getElem?_eq_getElem hi]
    have hi1 : s.length - (n + 1) + 1 = s.length - n := by omega
    rw [hdrop]
    unfold Checked.parseIPv4FieldsLoop ClientIP.parseIPv4FieldsLoop
    simp only [hidx, Except.bind, hi1]
    by_cases hd : '0' ≤ s[s.length - (n + 1)] ∧ s[s.length - (n + 1)] ≤ '9'
    · simp only [hd, and_self, if_true]
      split_ifs
      · rfl
      · rfl
      · exact ih _ _ _ _ _ (by omega) hf hpos hnext
    · simp only [hd, if_false]
      by_cases hdot : s[s.length - (n + 1)] = '.'
      · simp only [hdot, if_true]
        by_cases h0 : s.length - (n + 1) = 0
        · simp [h0]
        · have hlast : (((s.length - (n + 1) : Nat) : Int) = (s.length : Int) - 1)
              ↔ s.drop (s.length - n) = [] := by
            rw [List.drop_eq_nil_iff]
            omega
          by_cases hl : s.drop (s.length - n) = []
          · simp [h0, hl, hlast.mpr hl]
          · have hl' : ¬ (((s.length - (n + 1) : Nat) : Int) = (s.length : Int) - 1) :=
              fun h => hl (hlast.mp h)
            have hp := hprev h0
            have hlt : s.length - (n + 1) - 1 < s.length := by omega
            have hidx2 : indexAt s (((s.length - (n + 1) : Nat) : Int) - 1)
                = .ok s[s.length - (n + 1) - 1] := by
              have := indexAt_nat hlt
              have hc : ((s.length - (n + 1) - 1 : Nat) : Int)
                  = ((s.length - (n + 1) : Nat) : Int) - 1 := by omega
              rw [hc] at this
              simpa using this
            rw [List.getElem?_eq_getElem hlt] at hp
            simp only [h0, hl, hl', if_false, hidx2, Except.bind, hp, false_or,
              Option.some.injEq]
            by_cases hpd : s[s.length - (n + 1) - 1] = '.'
            · simp [hpd]
            · simp only [hpd, if_false]
              by_cases hp3 : pos = 3
              · simp [hp3]
              · simp only [hp3, if_false]
                rw [assignAt_nat _ (by omega : pos < fields.length)]
                exact ih 0 (pos + 1) 0 (fields.set pos (val % 256)) (some '.') (by omega)
                  (by simp [hf]) (by omega) (fun h => by rw [← hdot]; exact hnext h)
      · simp [hdot]
theorem parseIPv4FieldsLoop_length {s : GoString} {i : Nat} {prev : Option Char}
    {val pos digLen : Nat} {fields : List Nat} {r : Nat × Nat × List Nat}
    (h : parseIPv4FieldsLoop s i prev val pos digLen fields = some r) :
    r.2.2.length = fields.length := by
  induction s generalizing i prev val pos digLen fields with
  | nil =>
    simp only [parseIPv4FieldsLoop, Option.some.injEq] at h
    rw [← h]
  | cons x xs ih =>
    unfold parseIPv4FieldsLoop at h
    split_ifs at h
    · exact ih h
    · rw [ih h, List.length_set]

theorem Checked.parseIPv4Fields_eq {input s : GoString} {off e : Int} (fields : List Nat)
    (hs : sliceOf input off e = .ok s) (hf : fields.length = 4) :
    Checked.parseIPv4Fields input off e fields = .ok (ClientIP.parseIPv4Fields s fields) := by
  have hloop := Checked.parseIPv4FieldsLoop_eq s s.length 0 0 0 fields none (le_refl _) hf
    (by omega) (by simp)
  simp only [Nat.sub_self, List.drop_zero] at hloop
  simp only [Checked.parseIPv4Fields, ClientIP.parseIPv4Fields, hs, hloop, Except.bind]
  cases hp : ClientIP.parseIPv4FieldsLoop s 0 none 0 0 0 fields with
  | none => rfl
  | some r =>
    obtain ⟨val, pos, f⟩ := r
    have hlen : f.length = 4 := by
      have := parseIPv4FieldsLoop_length hp
      simpa [hf] using this
    have h3 := assignAt_nat (s := f) (n := 3) (val % 256) (by omega)
    simp only [Nat.cast_ofNat] at h3
    simp only [h3]
    split_ifs <;> rfl

theorem Checked.parseIPv4_eq (s : GoString) :
    Checked.parseIPv4 s = .ok (ClientIP.parseIPv4 s) := by
  have hs : sliceOf s 0 (s.length : Int) = .ok s := by
    have := sliceOf_from s (Nat.zero_le s.length)
    simpa using this
  have h4 := Checked.parseIPv4Fields_eq [0, 0, 0, 0] hs rfl
  simp only [Checked.parseIPv4, ClientIP.parseIPv4, h4, Except.bind]
  cases ClientIP.parseIPv4Fields s [0, 0, 0, 0] <;> rfl

theorem Checked.scanHex_eq (s : GoString) (n : Nat) :
    ∀ acc : Nat, n ≤ s.length →
      Checked.scanHex s n acc
        = .ok (ClientIP.scanHex (s.drop (s.length - n)) (s.length - n) acc) := by
  induction n with
  | zero =>
    intro acc _
    simp [Checked.scanHex, ClientIP.scanHex]
  | succ n ih =>
    intro acc hn
    have hi : s.length - (n + 1) < s.length := by omega
    have hdrop : s.drop (s.length - (n + 1))
        = s[s.length - (n + 1)] :: s.drop (s.length - n) := by
      rw [List.drop_eq_getElem_cons hi]
      congr 2
      omega
    have hidx : indexAt s ((s.length - (n + 1) : Nat) : Int) = .ok s[s.length - (n + 1)] :=
      indexAt_of_drop hdrop
    have hi1 : s.length - (n + 1) + 1 = s.length - n := by omega
    rw [hdrop]
    unfold Checked.scanHex ClientIP.scanHex
    simp only [hidx, Except.bind, hi1]
    cases hexVal s[s.length - (n + 1)] with
    | none => rfl
    | some v =>
      simp only []
      split_ifs
      · rfl
      · rfl
      · exact ih _ (by omega)

theorem scanHex_le {s : GoString} {off acc off1 acc1 : Nat}
    (h : ClientIP.scanHex s off acc = some (off1, acc1)) : off1 ≤ off + s.length := by
  induction s generalizing off acc with
  | nil =>
    simp only [ClientIP.scanHex, Option.some.injEq, Prod.mk.injEq] at h
    simp [h.1]
  | cons x xs ih =>
    unfold ClientIP.scanHex at h
    split at h
    · simp only [Option.some.injEq, Prod.mk.injEq] at h
      simp only [List.length_cons]
      omega
    · split_ifs at h
      have := ih h
      simp only [List.length_cons]
      omega
theorem drop_succ_of_cons {s t : GoString} {n : Nat} {c : Char} (h : s.drop n = c :: t) :
    s.drop (n + 1) = t := by
  have h1 : (s.drop n).head? = some c := by rw [h]; rfl
  have h2 := drop_eq_cons h1
  rw [h] at h2
  exact (List.cons.inj h2).2.symm

theorem sliceOf_suffix {input pre s : GoString} {E : Nat} (hE : E ≤ input.length)
    (h : input.take E = pre ++ s) :
    sliceOf input ((E : Int) - (s.length : Int)) (E : Int) = .ok s := by
  have hlen : E = pre.length + s.length := by
    have := congrArg List.length h
    simp only [List.length_take, List.length_append] at this
    omega
  have h1 : ((E : Int) - (s.length : Int)) = ((pre.length : Nat) : Int) := by omega
  rw [h1, sliceOf_nat input (by omega) hE, h]
  simp

theorem Checked.parseIPv6Loop_eq (input : GoString) (E : Nat) (hE : E ≤ input.length)
    (k : Nat) :
    ∀ (s : GoString) (ell : Int) (ip : List Nat), k ≤ 8 → ip.length = 16 →
      (∃ pre, input.take E = pre ++ s) →
      Checked.parseIPv6Loop input (E : Int) k s ell ip
        = .ok (ClientIP.parseIPv6Loop k s ell ip) := by
  induction k with
  | zero =>
    intro s ell ip _ _ _
    rfl
  | succ k ih =>
    intro s ell ip hk hip hsuf
    obtain ⟨pre, hpre⟩ := hsuf
    have hscan := Checked.scanHex_eq s s.length 0 (le_refl _)
    simp only [Nat.sub_self, List.drop_zero] at hscan
    unfold Checked.parseIPv6Loop ClientIP.parseIPv6Loop
    simp only [hscan, Except.bind]
    cases hsc : ClientIP.scanHex s 0 0 with
    | none => rfl
    | some r =>
      obtain ⟨off, acc⟩ := r
      have hoff : off ≤ s.length := by
        have := scanHex_le hsc
        omega
      simp only []
      by_cases h0 : off = 0
      · simp [h0]
      · simp only [h0, if_false]
        have hi : 16 - 2 * (k + 1) < ip.length := by omega
        have hi1 : 16 - 2 * (k + 1) + 1 < (ip.set (16 - 2 * (k + 1)) (acc / 256 % 256)).length := by
          simp only [List.length_set]
          omega
        have ha1 := assignAt_nat (s := ip) (acc / 256 % 256) hi
        have ha2 := assignAt_nat (s := ip.set (16 - 2 * (k + 1)) (acc / 256 % 256))
          (acc % 256) hi1
        have hsl := sliceOf_from s hoff
        have hlen2 : ∀ v w, ((ip.set (16 - 2 * (k + 1)) v).set (16 - 2 * (k + 1) + 1) w).length
            = 16 := by
          intro v w
          simp [hip]
        cases hd : s.drop off with
        | nil =>
          have hge : ¬ off < s.length := by
            have := List.drop_eq_nil_iff.mp hd
            omega
          simp only [hge, if_false, Bool.false_eq_true, ha1, ha2, hsl, hd, List.length_nil,
            if_true, List.head?_nil]
          simp
        | cons c t =>
          have hlt : off < s.length := by
            by_contra hge
            have : s.drop off = [] := List.drop_eq_nil_iff.mpr (by omega)
            rw [this] at hd
            cases hd
          have hidx : indexAt s (off : Int) = .ok c := indexAt_of_drop hd
          have hd1 : s.drop (off + 1) = t := drop_succ_of_cons hd
          simp only [hlt, if_true, hidx, hd, List.head?_cons, Option.some.injEq]
          by_cases hdot : c = '.'
          · subst hdot
            simp only [decide_True, if_true]
            split_ifs with h1 h2
            · rfl
            · rfl
            · have hslice : sliceOf ip ((16 - 2 * (k + 1) : Nat) : Int)
                  ((16 - 2 * (k + 1) + 4 : Nat) : Int)
                  = .ok ((ip.drop (16 - 2 * (k + 1))).take 4) := by
                rw [sliceOf_nat ip (by omega) (by omega), List.drop_take]
                simp
              have hflen : ((ip.drop (16 - 2 * (k + 1))).take 4).length = 4 := by
                simp only [List.length_take, List.length_drop]
                omega
              have h4 := Checked.parseIPv4Fields_eq ((ip.drop (16 - 2 * (k + 1))).take 4)
                (sliceOf_suffix hE hpre) hflen
              simp only [hslice, h4]
              cases ClientIP.parseIPv4Fields s ((ip.drop (16 - 2 * (k + 1))).take 4) <;> rfl
          · simp only [hdot, decide_False, Bool.false_eq_true, if_false, ha1, ha2, hsl, hd,
              List.length_cons, Nat.add_one_ne_zero, List.cons_ne_nil]
            have hi0 : indexAt (c :: t) 0 = .ok c := indexAt_of_drop (n := 0) rfl
            simp only [hi0]
            by_cases hcol : c = ':'
            · subst hcol
              simp only [ne_eq, not_true_eq_false, if_false]
              cases t with
              | nil => simp
              | cons c2 t2 =>
                have hd2 : s.drop (off + 2) = t2 := by
                  have := drop_succ_of_cons hd1
                  simpa using this
                have hs1 : sliceOf (':' :: c2 :: t2) 1 ((':' :: c2 :: t2).length : Int)
                    = .ok (c2 :: t2) := by
                  have := sliceOf_from (':' :: c2 :: t2)
                    (show 1 ≤ (':' :: c2 :: t2).length by simp)
                  simpa using this
                have hs2 : sliceOf (c2 :: t2) 1 ((c2 :: t2).length : Int) = .ok t2 := by
                  have := sliceOf_from (c2 :: t2) (show 1 ≤ (c2 :: t2).length by simp)
                  simpa using this
                have hi2 : indexAt (c2 :: t2) 0 = .ok c2 := indexAt_of_drop (n := 0) rfl
                simp only [List.length_cons] at hs1 hs2
                simp only [List.length_cons, hs1, hi2, hd1, hd2, List.head?_cons,
                  Option.some.injEq]
                have hne1 : ¬ (t2.length + 1 + 1 = 1) := by omega
                simp only [hne1, if_false]
                have hsuf1 : ∃ p, input.take E = p ++ (c2 :: t2) := by
                  refine ⟨pre ++ s.take off ++ [':'], ?_⟩
                  rw [hpre]
                  conv_lhs => rw [← List.take_append_drop off s, hd]
                  simp
                have hsuf2 : ∃ p, input.take E = p ++ t2 := by
                  obtain ⟨p, hp⟩ := hsuf1
                  exact ⟨p ++ [c2], by rw [hp]; simp⟩
                by_cases hc2 : c2 = ':'
                · subst hc2
                  simp only [if_true, hs2]
                  by_cases hell : ell ≥ 0
                  · simp [hell]
                  · simp only [hell, if_false]
                    cases t2 with
                    | nil => simp
                    | cons c3 t3 =>
                      simp only [List.length_cons, Nat.add_one_ne_zero, if_false,
                        List.cons_ne_nil]
                      exact ih _ _ _ (by omega) (hlen2 _ _) hsuf2
                · simp only [hc2, if_false]
                  exact ih _ _ _ (by omega) (hlen2 _ _) hsuf1
            · simp [hcol]
theorem parseIPv4Fields_length {s : GoString} {fields r : List Nat}
    (h : ClientIP.parseIPv4Fields s fields = some r) : r.length = fields.length := by
  unfold ClientIP.parseIPv4Fields at h
  split at h
  · cases h
  · next val pos f hl =>
    split_ifs at h
    simp only [Option.some.injEq] at h
    have := parseIPv4FieldsLoop_length hl
    rw [← h, List.length_set]
    exact this

theorem parseIPv6Loop_bounds {k : Nat} :
    ∀ {s rest : GoString} {ell ell1 : Int} {ip ip1 : List Nat} {i : Nat},
      ClientIP.parseIPv6Loop k s ell ip = some (rest, i, ell1, ip1) →
      k ≤ 8 → ip.length = 16 → (0 ≤ ell → ell ≤ ((16 - 2 * k : Nat) : Int)) →
      i ≤ 16 ∧ ip1.length = 16 ∧ (0 ≤ ell1 → ell1 ≤ (i : Int)) := by
  induction k with
  | zero =>
    intro s rest ell ell1 ip ip1 i h _ hip hell
    simp only [ClientIP.parseIPv6Loop, Option.some.injEq, Prod.mk.injEq] at h
    obtain ⟨-, rfl, rfl, rfl⟩ := h
    exact ⟨le_refl _, hip, fun h0 => by have := hell h0; omega⟩
  | succ k ih =>
    intro s rest ell ell1 ip ip1 i h hk hip hell
    have hlen2 : ∀ v w, ((ip.set (16 - 2 * (k + 1)) v).set (16 - 2 * (k + 1) + 1) w).length
        = 16 := by
      intro v w
      simp [hip]
    unfold ClientIP.parseIPv6Loop at h
    split at h
    · cases h
    · next off acc hscan =>
      split_ifs at h with h1 h2 h3 h4 h5 h6 h7 h8 h9 h10
      · split at h
        · cases h
        · next fields hf =>
          simp only [Option.some.injEq, Prod.mk.injEq] at h
          obtain ⟨-, rfl, rfl, rfl⟩ := h
          have hfl := parseIPv4Fields_length hf
          simp only [List.length_take, List.length_drop] at hfl
          refine ⟨by omega, ?_, fun h0 => by have := hell h0; omega⟩
          simp only [List.length_append, List.length_take, List.length_drop, hfl]
          omega
      · simp only [Option.some.injEq, Prod.mk.injEq] at h
        obtain ⟨-, rfl, rfl, rfl⟩ := h
        exact ⟨by omega, hlen2 _ _, fun h0 => by have := hell h0; omega⟩
      · simp only [Option.some.injEq, Prod.mk.injEq] at h
        obtain ⟨-, rfl, rfl, rfl⟩ := h
        exact ⟨by omega, hlen2 _ _, fun _ => le_refl _⟩
      · exact ih h (by omega) (hlen2 _ _) (fun _ => le_refl _)
      · exact ih h (by omega) (hlen2 _ _) (fun h0 => by have := hell h0; omega)

theorem Checked.shiftGroups_eq (n e : Nat) (cnt : Nat) :
    ∀ ip : List Nat, ip.length = 16 → e + cnt + n ≤ 16 →
      Checked.shiftGroups n e cnt ip = .ok (ClientIP.shiftGroups n e cnt ip) := by
  induction cnt with
  | zero =>
    intro ip _ _
    rfl
  | succ cnt ih =>
    intro ip hip hb
    have h1 : e + cnt < ip.length := by omega
    have h2 : e + cnt + n < ip.length := by omega
    have hget : ip.getD (e + cnt) 0 = ip.get ⟨e + cnt, h1⟩ := by
      simp [List.getD_eq_getElem?_getD, List.getElem?_eq_getElem h1]
    unfold Checked.shiftGroups ClientIP.shiftGroups
    rw [indexAt_nat h1]
    simp only [Except.bind]
    rw [assignAt_nat _ h2]
    simp only [hget]
    exact ih _ (by simp [hip]) (by omega)

theorem Checked.clearRange_eq (n e : Nat) (ip : List Nat) (h : e + n ≤ ip.length) :
    Checked.clearRange n e ip = .ok (ClientIP.clearRange n e ip) := by
  simp only [Checked.clearRange, sliceOf_nat ip (Nat.le_add_right e n) h, Except.bind]

theorem shiftGroups_length (n e cnt : Nat) :
    ∀ ip : List Nat, (ClientIP.shiftGroups n e cnt ip).length = ip.length := by
  induction cnt with
  | zero =>
    intro ip
    rfl
  | succ cnt ih =>
    intro ip
    simp only [ClientIP.shiftGroups, ih, List.length_set]
theorem Checked.parseIPv6_tail_eq (input s : GoString) (zone : GoString) (E : Nat)
    (hE : E ≤ input.length) (hs : input.take E = s) :
    (((if s.length ≥ 2 then
          (indexAt s 0).bind fun c0 =>
          if c0 = ':' then (indexAt s 1).bind fun c1 => .ok (decide (c1 = ':'))
          else .ok false
        else .ok false) : Except Panic Bool).bind fun lead =>
      (if lead then sliceOf s 2 (s.length : Int) else .ok s).bind fun s1 =>
      if lead ∧ s1.length = 0 then
        .ok (some ((AddrFrom16 (List.replicate 16 0)).WithZone zone))
      else
        (Checked.parseIPv6Loop input (E : Int) 8 s1 (if lead then 0 else -1)
          (List.replicate 16 0)).bind fun r =>
        match r with
        | none => .ok none
        | some (rest, i, ellipsis, ip) =>
          if rest.length ≠ 0 then .ok none
          else if i < 16 then
            if ellipsis < 0 then .ok none
            else
              (Checked.shiftGroups (16 - i) ellipsis.toNat (i - ellipsis.toNat) ip).bind
                fun ip1 =>
              (Checked.clearRange (16 - i) ellipsis.toNat ip1).bind fun ip2 =>
              .ok (some ((AddrFrom16 ip2).WithZone zone))
          else if ellipsis ≥ 0 then .ok none
          else .ok (some ((AddrFrom16 ip).WithZone zone)))
    = .ok
      (if s.take 2 = [':', ':'] ∧ s.drop 2 = [] then
        some ((AddrFrom16 (List.replicate 16 0)).WithZone zone)
      else
        match ClientIP.parseIPv6Loop 8 (if s.take 2 = [':', ':'] then s.drop 2 else s)
            (if s.take 2 = [':', ':'] then 0 else -1) (List.replicate 16 0) with
        | none => none
        | some (rest, i, ellipsis, ip) =>
          if rest ≠ [] then none
          else if i < 16 then
            if ellipsis < 0 then none
            else
              some ((AddrFrom16 (ClientIP.clearRange (16 - i) ellipsis.toNat
                (ClientIP.shiftGroups (16 - i) ellipsis.toNat (i - ellipsis.toNat) ip))).WithZone
                  zone)
          else if ellipsis ≥ 0 then none
          else some ((AddrFrom16 ip).WithZone zone)) := by
  -- the value of `lead`
  have hlead : ((if s.length ≥ 2 then
          (indexAt s 0).bind fun c0 =>
          if c0 = ':' then (indexAt s 1).bind fun c1 => .ok (decide (c1 = ':'))
          else .ok false
        else .ok false) : Except Panic Bool) = .ok (decide (s.take 2 = [':', ':'])) := by
    match s with
    | [] => simp
    | [a] => simp
    | a :: b :: t =>
      have h0 : indexAt (a :: b :: t) 0 = .ok a := indexAt_of_drop (n := 0) rfl
      have h1 : indexAt (a :: b :: t) 1 = .ok b := indexAt_of_drop (n := 1) rfl
      simp only [List.length_cons, ge_iff_le, Nat.le_add_left, if_true, h0, h1, Except.bind,
        List.take_succ_cons, List.take_zero, List.cons.injEq, and_true]
      by_cases ha : a = ':'
      · by_cases hb : b = ':'
        · simp [ha, hb]
        · simp [ha, hb]
      · simp [ha]
  rw [hlead]
  simp only [Except.bind]
  -- the loop, from either start
  have hloop : ∀ (s1 : GoString) (ell : Int), (∃ pre, input.take E = pre ++ s1) →
      (0 ≤ ell → ell ≤ 0) →
      ((Checked.parseIPv6Loop input (E : Int) 8 s1 ell (List.replicate 16 0)).bind fun r =>
        match r with
        | none => (.ok none : Except Panic (Option Addr))
        | some (rest, i, ellipsis, ip) =>
          if rest.length ≠ 0 then .ok none
          else if i < 16 then
            if ellipsis < 0 then .ok none
            else
              (Checked.shiftGroups (16 - i) ellipsis.toNat (i - ellipsis.toNat) ip).bind
                fun ip1 =>
              (Checked.clearRange (16 - i) ellipsis.toNat ip1).bind fun ip2 =>
              .ok (some ((AddrFrom16 ip2).WithZone zone))
          else if ellipsis ≥ 0 then .ok none
          else .ok (some ((AddrFrom16 ip).WithZone zone)))
      = .ok
        (match ClientIP.parseIPv6Loop 8 s1 ell (List.replicate 16 0) with
        | none => none
        | some (rest, i, ellipsis, ip) =>
          if rest ≠ [] then none
          else if i < 16 then
            if ellipsis < 0 then none
            else
              some ((AddrFrom16 (ClientIP.clearRange (16 - i) ellipsis.toNat
                (ClientIP.shiftGroups (16 - i) ellipsis.toNat (i - ellipsis.toNat)
                  ip))).WithZone zone)
          else if ellipsis ≥ 0 then none
          else some ((AddrFrom16 ip).WithZone zone)) := by
    intro s1 ell hsuf hell0
    · rw [Checked.parseIPv6Loop_eq input E hE 8 s1 ell _ (le_refl _) (by simp) hsuf]
      simp only [Except.bind]
      cases hl : ClientIP.parseIPv6Loop 8 s1 ell (List.replicate 16 0) with
      | none => rfl
      | some r =>
        obtain ⟨rest, i, ell1, ip⟩ := r
        obtain ⟨hi16, hip, hle⟩ := parseIPv6Loop_bounds hl (le_refl _) (by simp)
          (fun h0 => by have := hell0 h0; omega)
        simp only []
        by_cases hr : rest = []
        · subst hr
          simp only [List.length_nil, ne_eq, not_true_eq_false, if_false]
          by_cases hi : i < 16
          · simp only [hi, if_true]
            by_cases hneg : ell1 < 0
            · simp [hneg]
            · have hpos : 0 ≤ ell1 := by omega
              have hle' := hle hpos
              have hnat : ell1.toNat ≤ i := by omega
              simp only [hneg, if_false]
              rw [Checked.shiftGroups_eq _ _ _ ip hip (by omega)]
              simp only [Except.bind]
              rw [Checked.clearRange_eq _ _ _ (by rw [shiftGroups_length, hip]; omega)]
          · simp only [hi, if_false]
            split_ifs <;> rfl
        · have hr' : rest.length ≠ 0 := by
            intro h
            exact hr (List.length_eq_zero.mp h)
          simp [hr, hr']
  by_cases hl : s.take 2 = [':', ':']
  · have hs2 := take_two_eq hl
    have hlen : 2 ≤ s.length := by
      rw [hs2]
      simp
    have hsl : sliceOf s 2 (s.length : Int) = .ok (s.drop 2) := by
      have := sliceOf_from s hlen
      simpa using this
    simp only [hl, decide_True, if_true, hsl, true_and]
    by_cases hd : s.drop 2 = []
    · simp [hd]
    · have hd' : ¬ (s.drop 2).length = 0 := fun h => hd (List.length_eq_zero.mp h)
      simp only [hd, hd', if_false]
      exact hloop (s.drop 2) 0 ⟨s.take 2, by rw [hs, List.take_append_drop]⟩ (fun _ => le_refl _)
  · simp only [hl, decide_False, Bool.false_eq_true, if_false, false_and]
    exact hloop s (-1) ⟨[], by simpa using hs⟩ (fun h => by omega)
theorem Checked.parseIPv6_eq (input : GoString) :
    Checked.parseIPv6 input = .ok (ClientIP.parseIPv6 input) := by
  unfold Checked.parseIPv6 ClientIP.parseIPv6
  cases hp : IndexByteString input '%' with
  | none =>
    have h := Checked.parseIPv6_tail_eq input input [] input.length (le_refl _)
      (List.take_length input)
    simp only [indexInt, ne_eq, not_true_eq_false, if_false, Except.bind, false_and,
      List.length_nil, gt_iff_lt, lt_self_iff_false, sub_zero, Option.isSome_none,
      Bool.false_eq_true]
    exact h
  | some j =>
    have hj := IndexByteString_lt hp
    have hne : ¬ ((j : Int) = -1) := by omega
    have hs0 : sliceOf input 0 (j : Int) = .ok (input.take j) := by
      have := sliceOf_nat input (Nat.zero_le j) (le_of_lt hj)
      simpa using this
    have hs1 : sliceOf input ((j : Int) + 1) (input.length : Int) = .ok (input.drop (j + 1)) := by
      have := sliceOf_from input (show j + 1 ≤ input.length by omega)
      push_cast at this
      exact this
    simp only [indexInt, ne_eq, hne, not_false_eq_true, if_true, hs0, hs1, Except.bind,
      true_and, Option.isSome_some]
    by_cases hz : input.drop (j + 1) = []
    · simp [hz]
    · have hzl : (input.drop (j + 1)).length > 0 := List.length_pos.mpr hz
      have hE : (input.length : Int) - (((input.drop (j + 1)).length : Int) + 1) = (j : Int) := by
        simp only [List.length_drop]
        omega
      simp only [hz, if_false, hzl, if_true, hE]
      exact Checked.parseIPv6_tail_eq input (input.take j) (input.drop (j + 1)) j
        (le_of_lt hj) rfl

theorem Checked.ParseAddrLoop_eq (s : GoString) (n : Nat) (hn : n ≤ s.length) :
    Checked.ParseAddrLoop s n = .ok (ClientIP.ParseAddrLoop s (s.drop (s.length - n))) := by
  induction n with
  | zero => simp [Checked.ParseAddrLoop, ClientIP.ParseAddrLoop]
  | succ n ih =>
    have hi : s.length - (n + 1) < s.length := by omega
    have hdrop : s.drop (s.length - (n + 1))
        = s[s.length - (n + 1)] :: s.drop (s.length - n) := by
      rw [List.drop_eq_getElem_cons hi]
      congr 2
      omega
    have hidx : indexAt s ((s.length - (n + 1) : Nat) : Int) = .ok s[s.length - (n + 1)] :=
      indexAt_of_drop hdrop
    rw [hdrop]
    unfold Checked.ParseAddrLoop ClientIP.ParseAddrLoop
    simp only [hidx, Except.bind]
    split_ifs
    · exact Checked.parseIPv4_eq s
    · exact Checked.parseIPv6_eq s
    · rfl
    · exact ih (by omega)

theorem Checked.ParseIP_eq (s : GoString) :
    Checked.ParseIP s = .ok (ClientIP.ParseIP s) := by
  have h := Checked.ParseAddrLoop_eq s s.length (le_refl _)
  simp only [Nat.sub_self, List.drop_zero] at h
  simp only [Checked.ParseIP, Checked.ParseAddr, ClientIP.ParseIP, ClientIP.ParseAddr, h,
    Except.bind]
  cases ClientIP.ParseAddrLoop s s with
  | none => rfl
  | some a =>
    simp only []
    split_ifs <;> rfl
theorem IndexByteString_some {s : GoString} {c : Char} {m : Nat}
    (h : IndexByteString s c = some m) :
    s = s.take m ++ c :: s.drop (m + 1) ∧ c ∉ s.take m := by
  induction s generalizing m with
  | nil => simp [IndexByteString] at h
  | cons x xs ih =>
    by_cases hx : x = c
    · simp [IndexByteString, hx] at h
      subst h
      simp [hx]
    · simp only [IndexByteString, hx, if_false, Option.map_eq_some'] at h
      obtain ⟨j, hj, rfl⟩ := h
      obtain ⟨h1, h2⟩ := ih hj
      simp only [List.take_succ_cons, List.drop_succ_cons, List.cons_append, List.mem_cons,
        not_or]
      exact ⟨by rw [← h1], Ne.symm hx, h2⟩

theorem take_set_succ {α : Type} (a : List α) (i : Nat) (v : α) (h : i < a.length) :
    (a.set i v).take (i + 1) = a.take i ++ [v] := by
  induction a generalizing i with
  | nil => simp at h
  | cons x xs ih =>
    cases i with
    | zero => simp
    | succ j =>
      simp only [List.set_cons_succ, List.take_succ_cons, List.cons_append, List.cons.injEq,
        true_and]
      exact ih j (by simpa using h)

theorem Checked.genSplitLoop_eq (sep : Char) (k : Nat) :
    ∀ (a : List GoString) (i : Nat) (s : GoString), a.length = i + k + 1 → s.count sep ≤ k →
      Checked.genSplitLoop sep k a i s = .ok (a.take i ++ ClientIP.Split s sep) := by
  have hlast : ∀ (a : List GoString) (i : Nat) (s : GoString), i < a.length → sep ∉ s →
      ((assignAt a (i : Int) s).bind fun a1 => sliceOf a1 0 ((i : Int) + 1))
        = .ok (a.take i ++ ClientIP.Split s sep) := by
    intro a i s hi hs
    rw [assignAt_nat _ hi]
    simp only [Except.bind]
    have := sliceOf_nat (a.set i s) (Nat.zero_le (i + 1)) (by simp; omega)
    simp only [Nat.cast_zero, Nat.cast_add, Nat.cast_one, List.drop_zero] at this
    rw [this, take_set_succ a i s hi, Split_of_no_sep hs]
  induction k with
  | zero =>
    intro a i s ha hc
    unfold Checked.genSplitLoop
    exact hlast a i s (by omega) (List.count_eq_zero.mp (by omega))
  | succ k ih =>
    intro a i s ha hc
    unfold Checked.genSplitLoop
    cases hm : IndexByteString s sep with
    | none =>
      simp only [indexInt, Int.reduceNeg, Int.reduceLT, if_true]
      exact hlast a i s (by omega) (IndexByteString_eq_none.mp hm)
    | some m =>
      have hml := IndexByteString_lt hm
      obtain ⟨hdec, hno⟩ := IndexByteString_some hm
      have hneg : ¬ ((m : Int) < 0) := by omega
      have hs0 : sliceOf s 0 (m : Int) = .ok (s.take m) := by
        have := sliceOf_nat s (Nat.zero_le m) (le_of_lt hml)
        simpa using this
      have hs1 : sliceOf s ((m : Int) + 1) (s.length : Int) = .ok (s.drop (m + 1)) := by
        have := sliceOf_from s (show m + 1 ≤ s.length by omega)
        push_cast at this
        exact this
      have hcount : (s.drop (m + 1)).count sep ≤ k := by
        have h1 : s.count sep = (s.take m).count sep + 1 + (s.drop (m + 1)).count sep := by
          conv_lhs => rw [hdec]
          simp only [List.count_append, List.count_cons, beq_self_eq_true, if_true]
          omega
        omega
      simp only [indexInt, hneg, if_false, hs0, hs1, Except.bind]
      rw [assignAt_nat _ (by omega : i < a.length)]
      simp only []
      rw [ih _ _ _ (by simp; omega) hcount, take_set_succ a i _ (by omega)]
      conv_rhs => rw [hdec, Split_append, Split_of_no_sep hno]
      simp

theorem Checked.Split_eq (s : GoString) (sep : Char) :
    Checked.Split s sep = .ok (ClientIP.Split s sep) := by
  have hle : ¬ (s.count sep + 1 > s.length + 1) := by
    have := List.count_le_length sep s
    omega
  unfold Checked.Split
  simp only [hle, if_false, Nat.add_sub_cancel]
  rw [Checked.genSplitLoop_eq sep _ _ 0 s (by simp) (le_refl _)]
  simp
theorem Checked.indexFunc_eq (f : Char → Bool) (s : GoString) :
    ∀ i0 : Nat, Checked.indexFunc s f false i0 =
      if s.dropWhile f = [] then -1 else ((i0 + (s.takeWhile f).length : Nat) : Int) := by
  induction s with
  | nil =>
    intro i0
    simp [Checked.indexFunc]
  | cons r rs ih =>
    intro i0
    cases hr : f r with
    | false => simp [Checked.indexFunc, hr, List.dropWhile, List.takeWhile]
    | true =>
      simp only [Checked.indexFunc, hr, Bool.true_eq_false, if_false, ih, List.dropWhile,
        List.takeWhile, List.length_cons]
      split_ifs
      · rfl
      · congr 1
        omega

theorem drop_length_takeWhile (f : Char → Bool) (s : GoString) :
    s.drop (s.takeWhile f).length = s.dropWhile f := by
  have h : s.takeWhile f ++ s.dropWhile f = s := List.takeWhile_append_dropWhile f s
  have h2 := List.drop_left (s.takeWhile f) (s.dropWhile f)
  rw [h] at h2
  exact h2

theorem Checked.TrimLeftFunc_eq (f : Char → Bool) (s : GoString) :
    Checked.TrimLeftFunc s f = .ok (s.dropWhile f) := by
  unfold Checked.TrimLeftFunc
  rw [Checked.indexFunc_eq]
  by_cases hd : s.dropWhile f = []
  · simp [hd]
  · have hle : (s.takeWhile f).length ≤ s.length := (List.takeWhile_sublist f).length_le
    have hne : ¬ (((0 + (s.takeWhile f).length : Nat) : Int) = -1) := by omega
    simp only [hd, if_false, hne]
    have := sliceOf_from s hle
    simp only [Nat.zero_add]
    rw [this, drop_length_takeWhile]

theorem Checked.lastIndexFunc_eq (f : Char → Bool) (s : GoString) (i : Nat) :
    i ≤ s.length →
      Checked.lastIndexFunc s f false i
        = .ok ((((s.take i).reverse.dropWhile f).length : Int) - 1) := by
  induction i with
  | zero =>
    intro _
    simp [Checked.lastIndexFunc]
  | succ i ih =>
    intro hi
    have hlt : i < s.length := by omega
    have htake : s.take (i + 1) = s.take i ++ [s[i]] := by
      rw [List.take_succ, List.getElem?_eq_getElem hlt]
      rfl
    have hsl : sliceOf s 0 ((i + 1 : Nat) : Int) = .ok (s.take (i + 1)) := by
      have := sliceOf_nat s (Nat.zero_le (i + 1)) hi
      simpa using this
    have hlast : ∀ (l : GoString) (c : Char),
        ((l ++ [c]).getLast?).getD (Char.ofNat 0xFFFD) = c := by
      intro l c
      simp
    unfold Checked.lastIndexFunc
    simp only [hsl, Except.bind, htake, hlast, List.reverse_append, List.reverse_singleton,
      List.singleton_append]
    cases hf : f s[i] with
    | false =>
      have hlen : (s.take i).length = i := by
        rw [List.length_take]
        omega
      simp only [if_true, List.dropWhile, hf, List.length_cons, List.length_reverse, hlen]
      congr 1
      omega
    | true =>
      simp only [Bool.true_eq_false, if_false, List.dropWhile, hf]
      exact ih (by omega)

theorem rtrim_eq_take (f : Char → Bool) (s : GoString) :
    (s.reverse.dropWhile f).reverse = s.take (s.reverse.dropWhile f).length := by
  have h1 : (s.reverse.dropWhile f) <:+ s.reverse := List.dropWhile_suffix f
  have h2 : (s.reverse.dropWhile f).reverse <+: s := by
    have := List.reverse_prefix.mpr h1
    simpa using this
  have := List.prefix_iff_eq_take.mp h2
  simpa using this

theorem Checked.TrimRightFunc_eq (f : Char → Bool) (s : GoString) :
    Checked.TrimRightFunc s f = .ok (s.reverse.dropWhile f).reverse := by
  have hL : (s.reverse.dropWhile f).length ≤ s.length := by
    have := (List.dropWhile_sublist f (l := s.reverse)).length_le
    simpa using this
  unfold Checked.TrimRightFunc
  rw [Checked.lastIndexFunc_eq f s s.length (le_refl _), List.take_length]
  simp only [Except.bind]
  have hfin : sliceOf s 0 (((s.reverse.dropWhile f).length : Int) - 1 + 1)
      = .ok (s.reverse.dropWhile f).reverse := by
    have := sliceOf_nat s (Nat.zero_le _) hL
    simp only [Nat.cast_zero, List.drop_zero] at this
    rw [rtrim_eq_take]
    simpa using this
  by_cases h0 : (s.reverse.dropWhile f).length = 0
  · have hneg : ¬ (((s.reverse.dropWhile f).length : Int) - 1 ≥ 0) := by omega
    simp only [hneg, if_false]
    exact hfin
  · have hpos : (((s.reverse.dropWhile f).length : Int) - 1 ≥ 0) := by omega
    have hlt : (s.reverse.dropWhile f).length - 1 < s.length := by omega
    have hidx := indexAt_nat hlt
    have hc : (((s.reverse.dropWhile f).length - 1 : Nat) : Int)
        = ((s.reverse.dropWhile f).length : Int) - 1 := by omega
    rw [hc] at hidx
    have hsl : sliceOf s (((s.reverse.dropWhile f).length : Int) - 1) (s.length : Int)
        = .ok (s.drop ((s.reverse.dropWhile f).length - 1)) := by
      have := sliceOf_from s (le_of_lt hlt)
      rw [hc] at this
      exact this
    simp only [hpos, if_true, hidx, hsl]
    split_ifs
    · exact hfin
    · exact hfin

theorem Checked.TrimFunc_eq (s : GoString) :
    Checked.TrimFunc s isSpace = .ok (ClientIP.TrimSpace s) := by
  simp only [Checked.TrimFunc, Checked.TrimLeftFunc_eq, Except.bind, Checked.TrimRightFunc_eq,
    ClientIP.TrimSpace]
theorem asciiSpace_isSpace {c : Char} (h : Checked.asciiSpace c = true) : isSpace c = true := by
  simp only [Checked.asciiSpace, Bool.or_eq_true, decide_eq_true_eq] at h
  simp only [isSpace, Bool.or_eq_true, Bool.and_eq_true, decide_eq_true_eq]
  omega

theorem not_asciiSpace_not_isSpace {c : Char} (h : Checked.asciiSpace c = false)
    (ha : ¬ c.toNat ≥ 0x80) : isSpace c = false := by
  simp only [Checked.asciiSpace, Bool.or_eq_false_iff, decide_eq_false_iff_not] at h
  simp only [isSpace, Bool.or_eq_false_iff, Bool.and_eq_false_iff, decide_eq_false_iff_not]
  omega

theorem TrimSpace_drop {s : GoString} {st : Nat} (h : ∀ c ∈ s.take st, isSpace c = true) :
    ClientIP.TrimSpace (s.drop st) = ClientIP.TrimSpace s := by
  have := TrimSpace_pad (l := s.take st) (t := s.drop st) (r := []) h (by simp)
  simp only [List.append_nil, List.take_append_drop] at this
  exact this.symm

theorem rtrim_append_space {a r : GoString} (hr : ∀ c ∈ r, isSpace c = true) :
    ((a ++ r).reverse.dropWhile isSpace).reverse = (a.reverse.dropWhile isSpace).reverse := by
  rw [List.reverse_append,
    dropWhile_space_append_left (fun c hc => hr c (List.mem_reverse.mp hc))]

theorem Checked.TrimSpaceStart_spec (s : GoString) (n : Nat) :
    n ≤ s.length → (∀ c ∈ s.take (s.length - n), isSpace c = true) →
      Checked.TrimSpaceStart s n = .ok (.inl (ClientIP.TrimSpace s)) ∨
      ∃ st, Checked.TrimSpaceStart s n = .ok (.inr st) ∧ st ≤ s.length ∧
        (∀ c ∈ s.take st, isSpace c = true) ∧
        (∀ c t, s.drop st = c :: t → isSpace c = false) := by
  induction n with
  | zero =>
    intro _ hall
    refine Or.inr ⟨s.length, rfl, le_refl _, by simpa using hall, ?_⟩
    intro c t h
    simp at h
  | succ n ih =>
    intro hn hall
    have hi : s.length - (n + 1) < s.length := by omega
    have hdrop : s.drop (s.length - (n + 1))
        = s[s.length - (n + 1)] :: s.drop (s.length - n) := by
      rw [List.drop_eq_getElem_cons hi]
      congr 2
      omega
    have hidx : indexAt s ((s.length - (n + 1) : Nat) : Int) = .ok s[s.length - (n + 1)] :=
      indexAt_of_drop hdrop
    unfold Checked.TrimSpaceStart
    simp only [hidx, Except.bind]
    by_cases hna : s[s.length - (n + 1)].toNat ≥ 0x80
    · left
      simp only [hna, if_true, sliceOf_from s (le_of_lt hi), Checked.TrimFunc_eq,
        TrimSpace_drop hall]
    · simp only [hna, if_false]
      cases hsp : Checked.asciiSpace s[s.length - (n + 1)] with
      | false =>
        right
        refine ⟨s.length - (n + 1), by simp, le_of_lt hi, hall, ?_⟩
        intro c t h
        rw [hdrop] at h
        rw [← (List.cons.inj h).1]
        exact not_asciiSpace_not_isSpace hsp hna
      | true =>
        simp only [Bool.true_eq_false, if_false]
        apply ih (by omega)
        intro c hc
        have ht : s.take (s.length - n) = s.take (s.length - (n + 1)) ++ [s[s.length - (n + 1)]] := by
          have h1 : s.length - n = (s.length - (n + 1)) + 1 := by omega
          rw [h1, List.take_succ, List.getElem?_eq_getElem hi]
          rfl
        rw [ht] at hc
        rcases List.mem_append.mp hc with h | h
        · exact hall c h
        · rw [List.mem_singleton.mp h]
          exact asciiSpace_isSpace hsp

theorem Checked.TrimSpaceStop_spec (s : GoString) (st : Nat) (hst : st ≤ s.length) (m : Nat) :
    st + m ≤ s.length → (∀ c ∈ s.drop (st + m), isSpace c = true) →
      Checked.TrimSpaceStop s st m
          = .ok (.inl (((s.drop st).reverse.dropWhile isSpace).reverse)) ∨
      ∃ stop, Checked.TrimSpaceStop s st m = .ok (.inr stop) ∧ st ≤ stop ∧ stop ≤ s.length ∧
        (s.take stop).drop st = ((s.drop st).reverse.dropWhile isSpace).reverse := by
  induction m with
  | zero =>
    intro _ hall
    refine Or.inr ⟨st, rfl, le_refl _, hst, ?_⟩
    simp only [Nat.add_zero] at hall
    have h1 : (s.take st).drop st = [] := by
      apply List.drop_eq_nil_iff.mpr
      simp
    rw [h1]
    have : (s.drop st).reverse.dropWhile isSpace = [] :=
      dropWhile_space_all (fun c hc => hall c (List.mem_reverse.mp hc))
    rw [this]
    rfl
  | succ m ih =>
    intro hm hall
    have hi : st + m < s.length := by omega
    have hc1 : (((st + (m + 1) : Nat) : Int) - 1) = ((st + m : Nat) : Int) := by omega
    have hidx : indexAt s (((st + (m + 1) : Nat) : Int) - 1) = .ok s[st + m] := by
      rw [hc1]
      have := indexAt_nat hi
      simpa using this
    have hsplit : s.drop st = (s.take (st + (m + 1))).drop st ++ s.drop (st + (m + 1)) := by
      conv_lhs => rw [← List.take_append_drop (st + (m + 1)) s]
      rw [List.drop_append_of_le_length]
      simp only [List.length_take]
      omega
    have htail : (s.take (st + (m + 1))).drop st = (s.take (st + m)).drop st ++ [s[st + m]] := by
      have h1 : s.take (st + (m + 1)) = s.take (st + m) ++ [s[st + m]] := by
        rw [show st + (m + 1) = (st + m) + 1 by omega, List.take_succ,
          List.getElem?_eq_getElem hi]
        rfl
      rw [h1, List.drop_append_of_le_length]
      simp only [List.length_take]
      omega
    have hrt : ((s.drop st).reverse.dropWhile isSpace).reverse
        = (((s.take (st + (m + 1))).drop st).reverse.dropWhile isSpace).reverse := by
      conv_lhs => rw [hsplit]
      exact rtrim_append_space hall
    unfold Checked.TrimSpaceStop
    simp only [hidx, Except.bind]
    by_cases hna : s[st + m].toNat ≥ 0x80
    · left
      have hsl := sliceOf_nat s (show st ≤ st + (m + 1) by omega) hm
      simp only [hna, if_true, hsl, Checked.TrimRightFunc_eq, hrt]
    · simp only [hna, if_false]
      cases hsp : Checked.asciiSpace s[st + m] with
      | false =>
        right
        refine ⟨st + (m + 1), by simp, by omega, hm, ?_⟩
        rw [hrt, htail]
        simp [List.dropWhile, not_asciiSpace_not_isSpace hsp hna]
      | true =>
        simp only [Bool.true_eq_false, if_false]
        apply ih (by omega)
        intro c hc
        have hd : s.drop (st + m) = s[st + m] :: s.drop (st + (m + 1)) := by
          rw [List.drop_eq_getElem_cons hi]
          rfl
        rw [hd] at hc
        rcases List.mem_cons.mp hc with h | h
        · rw [h]
          exact asciiSpace_isSpace hsp
        · exact hall c h

theorem Checked.TrimSpace_eq (s : GoString) :
    Checked.TrimSpace s = .ok (ClientIP.TrimSpace s) := by
  unfold Checked.TrimSpace
  rcases Checked.TrimSpaceStart_spec s s.length (le_refl _) (by simp) with h1 | ⟨st, h1, hst, hall, hhead⟩
  · simp only [h1, Except.bind]
  · have hD : s.dropWhile isSpace = s.drop st := by
      conv_lhs => rw [← List.take_append_drop st s]
      rw [dropWhile_space_append_left hall]
      cases hd : s.drop st with
      | nil => rfl
      | cons c t => simp [List.dropWhile, hhead c t hd]
    have hT : ClientIP.TrimSpace s = ((s.drop st).reverse.dropWhile isSpace).reverse := by
      simp only [ClientIP.TrimSpace, hD]
    simp only [h1, Except.bind]
    rcases Checked.TrimSpaceStop_spec s st hst (s.length - st) (by omega)
        (by
          have : st + (s.length - st) = s.length := by omega
          rw [this]
          simp) with h2 | ⟨stop, h2, hle1, hle2, heq⟩
    · simp only [h2, hT]
    · simp only [h2, sliceOf_nat s hle1 hle2, heq, hT]
theorem Checked.canonicalLoop_eq (rest : GoString) :
    ∀ (i : Nat) (upper : Bool) (a : GoString), a.drop i = rest →
      Checked.canonicalLoop rest i upper a
        = .ok (a.take i ++ ClientIP.canonicalLoop rest upper) := by
  induction rest with
  | nil =>
    intro i upper a h
    have : a.take i = a := by
      have := List.take_append_drop i a
      rw [h, List.append_nil] at this
      exact this
    simp [Checked.canonicalLoop, ClientIP.canonicalLoop, this]
  | cons c cs ih =>
    intro i upper a h
    have hi : i < a.length := by
      by_contra hge
      have : a.drop i = [] := List.drop_eq_nil_iff.mpr (by omega)
      rw [this] at h
      cases h
    have hnext : ∀ v, (a.set i v).drop (i + 1) = cs := by
      intro v
      rw [List.drop_set_of_lt _ _ (Nat.lt_succ_self i)]
      exact drop_succ_of_cons h
    have hstep : ∀ (v : Char) (up : Bool),
        ((assignAt a (i : Int) v).bind fun a1 => Checked.canonicalLoop cs (i + 1) up a1)
          = .ok (a.take i ++ v :: ClientIP.canonicalLoop cs up) := by
      intro v up
      rw [assignAt_nat _ hi]
      simp only [Except.bind]
      rw [ih (i + 1) up _ (hnext v), take_set_succ a i v hi]
      simp
    unfold Checked.canonicalLoop ClientIP.canonicalLoop
    split_ifs
    · exact hstep _ _
    · exact hstep _ _
    · exact hstep _ _

theorem noCanonLoop_of_all {a : GoString} (h : a.all validHeaderFieldByte = true) :
    ∀ nc, Checked.noCanonLoop a nc = some nc := by
  induction a with
  | nil =>
    intro nc
    rfl
  | cons c cs ih =>
    intro nc
    simp only [List.all_cons, Bool.and_eq_true] at h
    simp only [Checked.noCanonLoop, h.1, if_true]
    exact ih h.2 nc

theorem noCanonLoop_some_false {a : GoString} :
    ∀ nc, Checked.noCanonLoop a nc = some false → a.all validHeaderFieldByte = true := by
  induction a with
  | nil =>
    intro nc _
    rfl
  | cons c cs ih =>
    intro nc h
    unfold Checked.noCanonLoop at h
    split_ifs at h with h1 h2
    · simp only [List.all_cons, h1, Bool.true_and]
      exact ih nc h
    · exfalso
      have htrue : ∀ (l : GoString) (b : Bool), Checked.noCanonLoop l true = some b → b = true := by
        intro l
        induction l with
        | nil =>
          intro b hb
          simp only [Checked.noCanonLoop, Option.some.injEq] at hb
          exact hb.symm
        | cons x xs ihx =>
          intro b hb
          unfold Checked.noCanonLoop at hb
          split_ifs at hb
          · exact ihx b hb
          · exact ihx b hb
      have := htrue cs false h
      cases this

theorem Checked.canonicalMIMEHeaderKey_eq (a : GoString) :
    Checked.canonicalMIMEHeaderKey a = .ok (ClientIP.CanonicalMIMEHeaderKey a) := by
  unfold Checked.canonicalMIMEHeaderKey ClientIP.CanonicalMIMEHeaderKey
  by_cases hall : a.all validHeaderFieldByte = true
  · rw [noCanonLoop_of_all hall false]
    simp only [hall, if_true]
    rw [Checked.canonicalLoop_eq a 0 true a rfl]
    simp
  · have hne : Checked.noCanonLoop a false ≠ some false :=
      fun h => hall (noCanonLoop_some_false false h)
    simp only [hall, if_false]
    cases hn : Checked.noCanonLoop a false with
    | none => rfl
    | some b =>
      cases b with
      | true => rfl
      | false => exact absurd hn hne

theorem Checked.CanonicalMIMEHeaderKeyLoop_eq (s : GoString) (n : Nat) :
    ∀ upper : Bool, n ≤ s.length →
      (∀ c ∈ s.take (s.length - n), validHeaderFieldByte c = true) →
      ClientIP.canonicalLoop s true
        = s.take (s.length - n) ++ ClientIP.canonicalLoop (s.drop (s.length - n)) upper →
      Checked.CanonicalMIMEHeaderKeyLoop s n upper
        = .ok (ClientIP.CanonicalMIMEHeaderKey s) := by
  induction n with
  | zero =>
    intro upper _ hall hcan
    simp only [Nat.sub_zero, List.take_length, List.drop_length, ClientIP.canonicalLoop,
      List.append_nil] at hall hcan
    have : s.all validHeaderFieldByte = true := List.all_eq_true.mpr hall
    simp [Checked.CanonicalMIMEHeaderKeyLoop, ClientIP.CanonicalMIMEHeaderKey, this, hcan]
  | succ n ih =>
    intro upper hn hall hcan
    have hi : s.length - (n + 1) < s.length := by omega
    have hdrop : s.drop (s.length - (n + 1))
        = s[s.length - (n + 1)] :: s.drop (s.length - n) := by
      rw [List.drop_eq_getElem_cons hi]
      congr 2
      omega
    have hidx : indexAt s ((s.length - (n + 1) : Nat) : Int) = .ok s[s.length - (n + 1)] :=
      indexAt_of_drop hdrop
    have ht : s.take (s.length - n) = s.take (s.length - (n + 1)) ++ [s[s.length - (n + 1)]] := by
      have h1 : s.length - n = (s.length - (n + 1)) + 1 := by omega
      rw [h1, List.take_succ, List.getElem?_eq_getElem hi]
      rfl
    unfold Checked.CanonicalMIMEHeaderKeyLoop
    simp only [hidx, Except.bind]
    cases hv : validHeaderFieldByte s[s.length - (n + 1)] with
    | false =>
      have : ¬ (s.all validHeaderFieldByte = true) := by
        intro h
        have := List.all_eq_true.mp h s[s.length - (n + 1)] (List.getElem_mem _)
        rw [hv] at this
        cases this
      simp [ClientIP.CanonicalMIMEHeaderKey, this]
    | true =>
      simp only [Bool.true_eq_false, if_false]
      split_ifs with h1 h2
      · exact Checked.canonicalMIMEHeaderKey_eq s
      · exact Checked.canonicalMIMEHeaderKey_eq s
      · apply ih _ (by omega)
        · intro c hc
          rw [ht] at hc
          rcases List.mem_append.mp hc with h | h
          · exact hall c h
          · rw [List.mem_singleton.mp h]
            exact hv
        · have hstep : ClientIP.canonicalLoop
                (s[s.length - (n + 1)] :: s.drop (s.length - n)) upper
              = s[s.length - (n + 1)] ::
                ClientIP.canonicalLoop (s.drop (s.length - n))
                  (decide (s[s.length - (n + 1)] = '-')) := by
            rw [ClientIP.canonicalLoop]
            simp only [h1, h2, if_false]
          rw [hcan, hdrop, hstep, ht, List.append_assoc]
          rfl
theorem Checked.CanonicalMIMEHeaderKey_eq (s : GoString) :
    Checked.CanonicalMIMEHeaderKey s = .ok (ClientIP.CanonicalMIMEHeaderKey s) := by
  unfold Checked.CanonicalMIMEHeaderKey
  apply Checked.CanonicalMIMEHeaderKeyLoop_eq s s.length true (le_refl _)
  · simp
  · simp

theorem Checked.Header_Get_eq (h : Header) (key : GoString) :
    Checked.Header.Get h key = .ok (ClientIP.Header.Get h key) := by
  unfold Checked.Header.Get ClientIP.Header.Get
  rw [Checked.CanonicalMIMEHeaderKey_eq]
  simp only [Except.bind]
  cases hl : List.lookup (ClientIP.CanonicalMIMEHeaderKey key) h with
  | none => simp
  | some v =>
    cases v with
    | nil => simp
    | cons x xs =>
      have : indexAt (x :: xs) 0 = .ok x := indexAt_of_drop (n := 0) rfl
      simp [this]

theorem Checked.splitHostPort_eq (addr : GoString) :
    Checked.splitHostPort addr = .ok (ClientIP.splitHostPort addr) := by
  unfold Checked.splitHostPort ClientIP.splitHostPort
  rw [Checked.SplitHostPort_eq]
  simp only [Except.bind]
  cases ClientIP.SplitHostPort addr with
  | error e => rfl
  | ok hp => rfl

theorem Checked.fromXForwardedForLoop_eq (toks : List GoString) :
    Checked.fromXForwardedForLoop toks = .ok (ClientIP.fromXForwardedForLoop toks) := by
  induction toks with
  | nil => rfl
  | cons t ts ih =>
    unfold Checked.fromXForwardedForLoop ClientIP.fromXForwardedForLoop
    simp only [Checked.TrimSpace_eq, Checked.splitHostPort_eq, Checked.ParseIP_eq, Except.bind]
    cases ClientIP.ParseIP (if (ClientIP.splitHostPort (ClientIP.TrimSpace t)).2 = true
        then (ClientIP.splitHostPort (ClientIP.TrimSpace t)).1 else ClientIP.TrimSpace t) with
    | none => exact ih
    | some a => rfl

theorem Checked.fromXForwardedFor_eq (xfwdfor : GoString) :
    Checked.fromXForwardedFor xfwdfor = .ok (ClientIP.fromXForwardedFor xfwdfor) := by
  simp only [Checked.fromXForwardedFor, ClientIP.fromXForwardedFor, Checked.Split_eq,
    Except.bind, Checked.fromXForwardedForLoop_eq]

theorem Checked.fromHeaderIPs_eq (h : Header) (names : List GoString) :
    Checked.fromHeaderIPs h names = .ok (ClientIP.fromHeaderIPs h names) := by
  induction names with
  | nil => rfl
  | cons n ns ih =>
    unfold Checked.fromHeaderIPs ClientIP.fromHeaderIPs
    simp only [Checked.Header_Get_eq, Checked.ParseIP_eq, Except.bind]
    cases ClientIP.ParseIP (ClientIP.Header.Get h n) with
    | none => exact ih
    | some a => rfl

/-- The code does not panic on a request that is not `nil`, and returns what `FromRequest`
of the first part of this file returns. -/
theorem Checked.FromRequest_eq (r : Request) :
    Checked.FromRequest (some r) = .ok (ClientIP.FromRequest r) := by
  unfold Checked.FromRequest ClientIP.FromRequest
  simp only [Checked.Header_Get_eq, Checked.fromXForwardedFor_eq, Except.bind]
  cases ClientIP.fromXForwardedFor (ClientIP.Header.Get r.Header "x-forwarded-for".toList) with
  | some a => rfl
  | none =>
    simp only [Checked.fromHeaderIPs_eq]
    cases ClientIP.fromHeaderIPs r.Header headerIPs with
    | some a => rfl
    | none => simp only [Checked.splitHostPort_eq, Checked.ParseIP_eq]
/-! ## The claims, concluded -/

/-- C6: `FromRequest` is total and raises no fault. For every header set and every peer address
string (the request `r`), the code with every index, slice, assignment and pointer dereference
checked (`Checked.FromRequest`) does not panic: it returns the value `FromRequest r`, an
address or absent. The only panic of `Checked.FromRequest` is on the `nil` request, which has
no header set and no peer address. The result is absent exactly when the chain parser yields
absent for `x-forwarded-for`, none of the eight alternative header values parses, and the peer
address (its host part when `splitHostPort` succeeds, the raw string otherwise) does not
parse; in terms of the inputs, exactly when no comma-separated token of the chain value, no
alternative header value and not the peer address holds an address literal. Empty, malformed
and non-ASCII inputs are evaluated: they give absent without a panic, the empty header set
with peer address `""` among them, and a malformed chain with a valid peer address gives the
peer address. -/
theorem FromRequest_total_absent_iff (r : Request) :
    Checked.FromRequest (some r) = .ok (FromRequest r) ∧
    (∀ (x : Option Request) (p : Panic),
      Checked.FromRequest x = .error p ↔ x = none ∧ p = .nilDereference) ∧
    (Checked.FromRequest (some r) = .ok none ↔
      fromXForwardedFor (r.Header.Get headerXForwardedFor) = none ∧
      (∀ n ∈ headerIPs, ParseIP (r.Header.Get n) = none) ∧
      ParseIP (if (splitHostPort r.RemoteAddr).2 then (splitHostPort r.RemoteAddr).1
        else r.RemoteAddr) = none) ∧
    (Checked.FromRequest (some r) = .ok none ↔
      (∀ t ∈ Split (r.Header.Get headerXForwardedFor) ',', ParseIP (chainToken t) = none) ∧
      (∀ n ∈ headerIPs, ParseIP (r.Header.Get n) = none) ∧
      ParseIP (peerHost r.RemoteAddr) = none) ∧
    Checked.FromRequest (some ⟨[], []⟩) = .ok none ∧
    Checked.FromRequest (some ⟨[("X-Forwarded-For".toList, [[]]), ("X-Real-Ip".toList, [])],
      ":".toList⟩) = .ok none ∧
    Checked.FromRequest (some ⟨[("X-Forwarded-For".toList, [",, [::,]:80 ,%,.,:%".toList]),
        ("X-Client-Ip".toList, ["1.2.3.4.5".toList]),
        ("Cf-Connecting-Ip".toList, ["256.1.1.1".toList]),
        ("True-Client-Ip".toList, ["1:2:3:4:5:6:7:8:9".toList]),
        ("X-Real-Ip".toList, ["12345::".toList]),
        ("X-Forwarded".toList, ["::1.2.3".toList]),
        ("Forwarded-For".toList, ["fe80::1%".toList])],
      "[]:80".toList⟩) = .ok none ∧
    Checked.FromRequest (some ⟨[("X-Forwarded-For".toList, ["\t\x00 é  ,　".toList])],
      "[::1".toList⟩) = .ok none ∧
    Checked.FromRequest (some ⟨[("X-Forwarded-For".toList, ["unknown, ::g".toList])],
      "[::1%lo]:80".toList⟩) = .ok none ∧
    Checked.FromRequest (some ⟨[("X-Forwarded-For".toList, ["unknown, ::g".toList])],
      "192.0.2.10:54321".toList⟩) = .ok (some (IPv4 192 0 2 10)) := by
  have heq := Checked.FromRequest_eq r
  have habs : FromRequest r = none ↔
      fromXForwardedFor (r.Header.Get headerXForwardedFor) = none ∧
      (∀ n ∈ headerIPs, ParseIP (r.Header.Get n) = none) ∧
      ParseIP (peerHost r.RemoteAddr) = none := by
    constructor
    · intro h
      cases hchain : fromXForwardedFor (r.Header.Get headerXForwardedFor) with
      | some a =>
        have hc := hchain
        simp only [headerXForwardedFor] at hc
        simp only [FromRequest, hc] at h
        cases h
      | none =>
        have hc := hchain
        simp only [headerXForwardedFor] at hc
        cases halt : fromHeaderIPs r.Header headerIPs with
        | some b =>
          simp only [FromRequest, hc, halt] at h
          cases h
        | none =>
          simp only [FromRequest, hc, halt] at h
          exact ⟨rfl, fromHeaderIPs_eq_none.mp halt, h⟩
    · rintro ⟨h1, h2, h3⟩
      rw [FromRequest_fallback h1 h2, h3]
  have hok : ∀ o : Option IP, (Except.ok o : Except Panic (Option IP)) = .ok none ↔ o = none := by
    intro o
    constructor
    · intro h
      cases h
      rfl
    · intro h
      rw [h]
  refine ⟨heq, ?_, ?_, ?_, rfl, rfl, rfl, rfl, rfl, rfl⟩
  · intro x p
    cases x with
    | none =>
      constructor
      · intro h
        simp only [Checked.FromRequest, Except.error.injEq] at h
        exact ⟨rfl, h.symm⟩
      · rintro ⟨-, rfl⟩
        rfl
    | some q =>
      rw [Checked.FromRequest_eq q]
      constructor
      · intro h
        cases h
      · rintro ⟨h, -⟩
        cases h
  · rw [heq, hok, habs]
    rfl
  · rw [heq, hok, habs]
    constructor
    · rintro ⟨h1, h2, h3⟩
      exact ⟨fromXForwardedForLoop_eq_none.mp h1, h2, h3⟩
    · rintro ⟨h1, h2, h3⟩
      exact ⟨fromXForwardedForLoop_eq_none.mpr h1, h2, h3⟩

end ClientIP
